import Mathlib

/-!
Verification development for `Hyperparameters.py` (recurrent-whisperer).

The Python module is shallowly embedded: Python values that can occur as
hyperparameter settings are modelled by the inductive type `Value`
(booleans, ints, strings, `None`, numpy-style arrays, nested dicts);
Python dicts are modelled as association lists in insertion order, which
is exactly the observable content and ordering of a Python dict.
Fallible Python code (raising `ValueError` / `AttributeError` /
`TypeError`) is modelled with `Except PyErr`.  Functions whose Python
recursion is not structural are defined with an explicit fuel parameter
(always called with sufficient fuel by the fuel-free wrapper), so that
every definition is executable by the kernel.
-/

namespace HP

/-- Model of the Python values handled by `Hyperparameters.py`: bool, int,
str, `None`, numpy arrays (`vArr`) and nested dicts (`vDict`).
(Python floats are not modelled; no claim depends on float values.) -/
inductive Value : Type where
  | vBool : Bool → Value
  | vInt : Int → Value
  | vStr : String → Value
  | vNone : Value
  | vArr : List Value → Value
  | vDict : List (String × Value) → Value

/-- A Python dict, as an association list in insertion order. -/
abbrev Dict := List (String × Value)

/-- The keys of a dict, in insertion order (models `d.keys()` in Python 2,
which returns a list snapshot; the module header states Python 2.7.12). -/
def keys (d : Dict) : List String := d.map Prod.fst

/-- Python `d[k] = v`: overwrite in place if the key is present (keeping
its position), otherwise append at the end. -/
def dictSet : Dict → String → Value → Dict
  | [], k, v => [(k, v)]
  | (k', v') :: t, k, v => if k' = k then (k, v) :: t else (k', v') :: dictSet t k v

/-- Python `d.update(other)`: `d[k] = v` for every item of `other`. -/
def dictUpdate (d other : Dict) : Dict :=
  other.foldl (fun acc kv => dictSet acc kv.1 kv.2) d

/-- Python `d[k]` for a key known to be present (defaulting to `None`
when absent; the embedded code only reads keys it has checked). -/
def lookupD (d : Dict) (k : String) : Value := (List.lookup k d).getD .vNone

/-- The Python exceptions raised by the embedded code
(`argumentTypeError` models `argparse.ArgumentTypeError`). -/
inductive PyErr : Type where
  | valueError
  | attributeError
  | typeError
  | argumentTypeError

mutual

/-- Executable size of a `Value` (used only to supply sufficient fuel to
fuel-based functions; the derived `sizeOf` of a nested inductive is not
executable). -/
def valueSize : Value → Nat
  | .vArr a => valueListSize a + 1
  | .vDict d => entryListSize d + 1
  | _ => 1

/-- Executable size of a list of values. -/
def valueListSize : List Value → Nat
  | [] => 0
  | v :: t => valueSize v + valueListSize t + 1

/-- Executable size of a list of dict entries. -/
def entryListSize : List (String × Value) → Nat
  | [] => 0
  | kv :: t => valueSize kv.2 + entryListSize t + 1

end

/-- Python `==`, with fuel for the nested dict/array cases.  Mirrors
Python semantics on the value kinds we model: `True == 1`, dict equality
is key-set plus pointwise equality (insertion-order independent). -/
def pyEqF : Nat → Value → Value → Bool
  | 0, _, _ => false
  | fuel + 1, v, w =>
    match v, w with
    | .vBool a, .vBool b => a == b
    | .vBool a, .vInt b => (if a then (1 : Int) else 0) == b
    | .vInt a, .vBool b => a == (if b then (1 : Int) else 0)
    | .vInt a, .vInt b => a == b
    | .vStr a, .vStr b => a == b
    | .vNone, .vNone => true
    | .vArr a, .vArr b =>
      a.length == b.length && (List.zip a b).all (fun p => pyEqF fuel p.1 p.2)
    | .vDict d1, .vDict d2 =>
      (keys d1).isPerm (keys d2) &&
        d1.all (fun kv =>
          match List.lookup kv.1 d2 with
          | some w2 => pyEqF fuel kv.2 w2
          | none => false)
    | _, _ => false

/-- Python `==` (fuel-free wrapper; `sizeOf` bounds the nesting depth). -/
def pyEq (v w : Value) : Bool := pyEqF (valueSize v) v w

/-- Models `val == 'None'` (Hyperparameters.py line 166): only the string
`"None"` compares equal to the string literal `'None'`. -/
def isNoneStr : Value → Bool
  | .vStr s => s == "None"
  | _ => false

/-- Models `np.all(val != dflt)` (Hyperparameters.py line 181): for two
arrays of equal length the comparison is element-wise and `np.all` asks
that EVERY element differ; an array and a scalar broadcast; two non-array
values reduce to ordinary inequality. -/
def npAllNe (val dflt : Value) : Bool :=
  match val, dflt with
  | .vArr a, .vArr b =>
    if a.length = b.length then (List.zip a b).all (fun p => !(pyEq p.1 p.2))
    else true
  | .vArr a, w => a.all (fun x => !(pyEq x w))
  | v, .vArr b => b.all (fun y => !(pyEq v y))
  | v, w => !(pyEq v w)

/-- The loop of `_parse` over `input_hps.items()` (lines 164-182):
rewrites `'None'` to `None`, rejects unknown keys, overwrites the default
value in `hps`, and records the key in `hps_to_hash` when it is a hash key
whose value is non-default according to `np.all (val != dflt)`. -/
def parseLoop (default_hps : Dict) (hash_keys : List String) :
    List (String × Value) → Dict → Dict → Except PyErr (Dict × Dict)
  | [], hps, hth => .ok (hps, hth)
  | (key, v) :: rest, hps, hth =>
    let val := if isNoneStr v then .vNone else v
    if (keys default_hps).contains key then
      parseLoop default_hps hash_keys rest (dictSet hps key val)
        (if hash_keys.contains key && npAllNe val (lookupD default_hps key) then
          dictSet hth key val
        else hth)
    else .error .valueError

/-- Result of `_parse`, together with the final states of the two
caller-supplied default dicts.  `default_hash_hps_final` records the
content of the caller's `default_hash_hps` object after the call: line
155 aliases it as `default_hps` and line 156 `update`s it in place. -/
structure ParseOut where
  hps : Dict
  hps_to_hash : Dict
  default_hash_hps_final : Dict
  default_non_hash_hps_final : Dict

/-- `Hyperparameters._parse` (lines 123-184).  `None` arguments are
modelled as `Option.none`; calling `.keys()` (lines 148-149) or
`.items()` (line 164) on `None` raises `AttributeError`.  The hash-key
snapshot `default_hash_hp_keys` is taken before the `update` (Python 2
`keys()` returns a list copy). -/
def _parse (input_hps default_hash_hps default_non_hash_hps : Option Dict) :
    Except PyErr ParseOut :=
  match default_hash_hps with
  | none => .error .attributeError
  | some dh =>
    match default_non_hash_hps with
    | none => .error .attributeError
    | some dnh =>
      if (keys dnh).any (fun k => (keys dh).contains k) then .error .valueError
      else
        let default_hps := dictUpdate dh dnh
        match input_hps with
        | none => .error .attributeError
        | some ihps =>
          match parseLoop default_hps (keys dh) ihps default_hps [] with
          | .ok (hps, hth) => .ok ⟨hps, hth, default_hps, dnh⟩
          | .error e => .error e

/-- The state of a constructed `Hyperparameters` object: the full
effective configuration, the dict of non-default hash hps, and the
requested hash length. -/
structure Hyperparameters where
  all_hps : Dict
  hash_hps : Dict
  hash_len : Nat

/-- Both default dicts are `None` (the line 71 test). -/
def bothNone : Option Dict → Option Dict → Bool
  | none, none => true
  | _, _ => false

/-- `Hyperparameters.__init__` (lines 27-81).  Returns the constructed
object together with the final contents of the caller's
`default_hash_hps` and `default_non_hash_hps` dicts (to make the frame
effect of construction observable in the model). -/
def construct (hps default_hash_hps default_non_hash_hps : Option Dict)
    (hash_len : Nat) : Except PyErr (Hyperparameters × Dict × Dict) :=
  if bothNone default_hash_hps default_non_hash_hps then .error .valueError
  else
    match _parse hps default_hash_hps default_non_hash_hps with
    | .ok po =>
      .ok (⟨po.hps, po.hps_to_hash, hash_len⟩,
        po.default_hash_hps_final, po.default_non_hash_hps_final)
    | .error e => .error e

/-! Canonical serializer (`_sorted_str_from_dict`, lines 186-222) and
fingerprint generator (`_generate_hash`, lines 224-241). -/

/-- Code-point lexicographic comparison of key character lists.  This is
the order `numpy.sort` uses on a list of Python strings (comparison by
unicode code points). -/
def keyLebL : List Char → List Char → Bool
  | [], _ => true
  | _ :: _, [] => false
  | a :: as, b :: bs =>
    if a.toNat < b.toNat then true
    else if b.toNat < a.toNat then false
    else keyLebL as bs

/-- Code-point lexicographic comparison of keys. -/
def keyLe (a b : String) : Bool := keyLebL a.data b.data

/-- Models `sort(list(d.keys()))` at line 199: the keys sorted ascending
by code-point lexicographic order. -/
def sortKeys (ks : List String) : List String :=
  List.insertionSort (fun a b => keyLe a b = true) ks

/-- Python `str` of a bool: `"True"` / `"False"`. -/
def pyBoolStr (b : Bool) : String := if b then "True" else "False"

/-- Fuel-based body of `_sorted_str_from_dict` together with the `str(val)`
conversion it applies to non-dict values (lines 204-222): keys in sorted
order, each rendered as `key: value`, joined by `", "` inside braces.
Arrays render in numpy style (space-separated inside brackets). -/
def strOfValF : Nat → Value → String
  | 0, _ => ""
  | fuel + 1, v =>
    match v with
    | .vBool b => pyBoolStr b
    | .vInt n => toString n
    | .vStr s => s
    | .vNone => "None"
    | .vArr a => "[" ++ String.intercalate " " (a.map (strOfValF fuel)) ++ "]"
    | .vDict d =>
      "\x7b" ++
        String.intercalate ", "
          ((sortKeys (keys d)).map (fun k => k ++ ": " ++ strOfValF fuel (lookupD d k))) ++
        "\x7d"

/-- `str(val)` as used by `_sorted_str_from_dict` (fuel-free wrapper). -/
def strOfVal (v : Value) : String := strOfValF (valueSize v) v

/-- `Hyperparameters._sorted_str_from_dict` (lines 186-222). -/
def sorted_str_from_dict (d : Dict) : String := strOfVal (.vDict d)

/-- UTF-8 encoding of one character (1-4 bytes), as `str.encode('utf-8')`. -/
def utf8Char (c : Char) : List Nat :=
  let n := c.toNat
  if n < 128 then [n]
  else if n < 2048 then [192 + n / 64, 128 + n % 64]
  else if n < 65536 then [224 + n / 4096, 128 + (n / 64) % 64, 128 + n % 64]
  else [240 + n / 262144, 128 + (n / 4096) % 64, 128 + (n / 64) % 64, 128 + n % 64]

/-- UTF-8 encoding of a string (models `str_to_hash.encode('utf-8')`). -/
def utf8Encode (s : String) : List Nat := s.data.flatMap utf8Char

/-- Truncation to 64 bits. -/
def w64 (n : Nat) : Nat := n % 18446744073709551616

/-- 64-bit rotate right. -/
def rotr64 (x n : Nat) : Nat := w64 ((x >>> n) ||| (x <<< (64 - n)))

/-- SHA-512 Σ0. -/
def bigS0 (x : Nat) : Nat := rotr64 x 28 ^^^ rotr64 x 34 ^^^ rotr64 x 39

/-- SHA-512 Σ1. -/
def bigS1 (x : Nat) : Nat := rotr64 x 14 ^^^ rotr64 x 18 ^^^ rotr64 x 41

/-- SHA-512 σ0. -/
def smallS0 (x : Nat) : Nat := rotr64 x 1 ^^^ rotr64 x 8 ^^^ (x >>> 7)

/-- SHA-512 σ1. -/
def smallS1 (x : Nat) : Nat := rotr64 x 19 ^^^ rotr64 x 61 ^^^ (x >>> 6)

/-- SHA-512 Ch (with 64-bit complement as xor with 2^64 - 1). -/
def chF (e f g : Nat) : Nat := (e &&& f) ^^^ ((e ^^^ 18446744073709551615) &&& g)

/-- SHA-512 Maj. -/
def majF (a b c : Nat) : Nat := (a &&& b) ^^^ (a &&& c) ^^^ (b &&& c)

/-- The eight 64-bit working variables of SHA-512. -/
structure Sha2State where
  a : Nat
  b : Nat
  c : Nat
  d : Nat
  e : Nat
  f : Nat
  g : Nat
  h : Nat

/-- SHA-512 initial hash value (fractional parts of square roots of the
first eight primes). -/
def sha512H0 : Sha2State :=
  ⟨7640891576956012808, 13503953896175478587, 4354685564936845355, 11912009170470909681,
   5840696475078001361, 11170449401992604703, 2270897969802886507, 6620516959819538809⟩

/-- SHA-512 round constants (fractional parts of cube roots of the first
eighty primes). -/
def sha512K : List Nat :=
  [4794697086780616226, 8158064640168781261, 13096744586834688815, 16840607885511220156,
   4131703408338449720, 6480981068601479193, 10538285296894168987, 12329834152419229976,
   15566598209576043074, 1334009975649890238, 2608012711638119052, 6128411473006802146,
   8268148722764581231, 9286055187155687089, 11230858885718282805, 13951009754708518548,
   16472876342353939154, 17275323862435702243, 1135362057144423861, 2597628984639134821,
   3308224258029322869, 5365058923640841347, 6679025012923562964, 8573033837759648693,
   10970295158949994411, 12119686244451234320, 12683024718118986047, 13788192230050041572,
   14330467153632333762, 15395433587784984357, 489312712824947311, 1452737877330783856,
   2861767655752347644, 3322285676063803686, 5560940570517711597, 5996557281743188959,
   7280758554555802590, 8532644243296465576, 9350256976987008742, 10552545826968843579,
   11727347734174303076, 12113106623233404929, 14000437183269869457, 14369950271660146224,
   15101387698204529176, 15463397548674623760, 17586052441742319658, 1182934255886127544,
   1847814050463011016, 2177327727835720531, 2830643537854262169, 3796741975233480872,
   4115178125766777443, 5681478168544905931, 6601373596472566643, 7507060721942968483,
   8399075790359081724, 8693463985226723168, 9568029438360202098, 10144078919501101548,
   10430055236837252648, 11840083180663258601, 13761210420658862357, 14299343276471374635,
   14566680578165727644, 15097957966210449927, 16922976911328602910, 17689382322260857208,
   500013540394364858, 748580250866718886, 1242879168328830382, 1977374033974150939,
   2944078676154940804, 3659926193048069267, 4368137639120453308, 4836135668995329356,
   5532061633213252278, 6448918945643986474, 6902733635092675308, 7801388544844847127]

/-- One SHA-512 compression round, consuming a (constant, scheduled word)
pair. -/
def sha512Round (st : Sha2State) (kw : Nat × Nat) : Sha2State :=
  let t1 := w64 (st.h + bigS1 st.e + chF st.e st.f st.g + kw.1 + kw.2)
  let t2 := w64 (bigS0 st.a + majF st.a st.b st.c)
  ⟨w64 (t1 + t2), st.a, st.b, st.c, w64 (st.d + t1), st.e, st.f, st.g⟩

/-- Message-schedule extension: `rl` holds already-computed words, most
recent first; each step prepends `σ1(W[t-2]) + W[t-7] + σ0(W[t-15]) + W[t-16]`. -/
def extendW : Nat → List Nat → List Nat
  | 0, rl => rl
  | n + 1, rl =>
    let nw := w64 (rl.getD 15 0 + smallS0 (rl.getD 14 0) + rl.getD 6 0 + smallS1 (rl.getD 1 0))
    extendW n (nw :: rl)

/-- The eighty scheduled words of one block (input: the block's sixteen
words in order). -/
def scheduleW (ws : List Nat) : List Nat := (extendW 64 ws.reverse).reverse

/-- Big-endian value of a byte list. -/
def beWord (bs : List Nat) : Nat := bs.foldl (fun acc byt => acc * 256 + byt) 0

/-- Big-endian bytes of a value, exactly `len` bytes. -/
def beBytes : Nat → Nat → List Nat
  | 0, _ => []
  | len + 1, n => beBytes len (n / 256) ++ [n % 256]

/-- Split a list into chunks of `n` (fuel-based; fuel=length suffices for
`n ≥ 1`). -/
def chunksF : Nat → Nat → List Nat → List (List Nat)
  | 0, _, _ => []
  | _, _, [] => []
  | fuel + 1, n, x :: t => (x :: t).take n :: chunksF fuel n ((x :: t).drop n)

/-- Compress one 1024-bit block (sixteen words) into the running state. -/
def compressBlock (H : Sha2State) (ws : List Nat) : Sha2State :=
  let st := (List.zip sha512K (scheduleW ws)).foldl sha512Round H
  ⟨w64 (H.a + st.a), w64 (H.b + st.b), w64 (H.c + st.c), w64 (H.d + st.d),
   w64 (H.e + st.e), w64 (H.f + st.f), w64 (H.g + st.g), w64 (H.h + st.h)⟩

/-- SHA-512 padding: `0x80`, zeros, and the 128-bit big-endian bit length,
to a multiple of 128 bytes. -/
def sha512Pad (msg : List Nat) : List Nat :=
  msg ++ 128 :: (List.replicate ((128 - ((msg.length + 17) % 128)) % 128) 0 ++
    beBytes 16 (8 * msg.length))

/-- The 64 digest bytes of a final SHA-512 state. -/
def digestBytes (st : Sha2State) : List Nat :=
  beBytes 8 st.a ++ beBytes 8 st.b ++ beBytes 8 st.c ++ beBytes 8 st.d ++
    beBytes 8 st.e ++ beBytes 8 st.f ++ beBytes 8 st.g ++ beBytes 8 st.h

/-- SHA-512 digest (64 bytes) of a byte message, per FIPS 180-4; models
`hashlib.new('sha512')` as called at lines 237-239. -/
def sha512Bytes (msg : List Nat) : List Nat :=
  let padded := sha512Pad msg
  digestBytes ((chunksF padded.length 128 padded).foldl
    (fun H blk => compressBlock H ((chunksF blk.length 8 blk).map beWord)) sha512H0)

/-- Lowercase hex digit. -/
def hexChar (n : Nat) : Char := if n < 10 then Char.ofNat (48 + n) else Char.ofNat (87 + n)

/-- Lowercase hex string of a byte list (`hexdigest()`). -/
def hexStr (bytes : List Nat) : String :=
  ⟨bytes.foldr (fun byt acc => hexChar (byt / 16) :: hexChar (byt % 16) :: acc) []⟩

/-- `Hyperparameters._generate_hash` (lines 224-241): the SHA-512 hex
digest of the UTF-8-encoded canonical string of `hps`.  (The stray
`print` at line 235 has no functional effect.) -/
def _generate_hash (hps : Dict) : String :=
  hexStr (sha512Bytes (utf8Encode (sorted_str_from_dict hps)))

/-- Python slicing `s[0:n]`. -/
def strTake (s : String) (n : Nat) : String := ⟨s.data.take n⟩

/-- `Hyperparameters.get_hash` (lines 94-109):
`self._generate_hash(self._hash_hps_as_dict)[0:self._hash_len]`. -/
def get_hash (hp : Hyperparameters) : String :=
  strTake (_generate_hash hp.hash_hps) hp.hash_len

/-- `Hyperparameters.get_hash_all_hps` (lines 111-121). -/
def get_hash_all_hps (hp : Hyperparameters) : String :=
  strTake (_generate_hash hp.all_hps) hp.hash_len

theorem beBytes_length (len n : Nat) : (beBytes len n).length = len := by
  induction len generalizing n with
  | zero => rfl
  | succ k ih => simp [beBytes, ih]

theorem hexStr_length (bs : List Nat) : (hexStr bs).length = 2 * bs.length := by
  simp only [hexStr, String.length]
  induction bs with
  | nil => rfl
  | cons x t ih => simp only [List.foldr_cons, List.length_cons] at ih ⊢; omega

theorem digestBytes_length (st : Sha2State) : (digestBytes st).length = 64 := by
  simp only [digestBytes, List.length_append, beBytes_length]

theorem sha512Bytes_length (msg : List Nat) : (sha512Bytes msg).length = 64 :=
  digestBytes_length _

theorem generate_hash_length (d : Dict) : (_generate_hash d).length = 128 := by
  simp [_generate_hash, hexStr_length, sha512Bytes_length]

theorem strTake_length (s : String) (n : Nat) :
    (strTake s n).length = min n s.length := by
  simp only [strTake, String.length, List.length_take]

theorem get_hash_length (hp : Hyperparameters) :
    (get_hash hp).length = min hp.hash_len 128 := by
  simp [get_hash, strTake_length, generate_hash_length]

theorem construct_ok_inv {hps dh dnh : Option Dict} {hl : Nat}
    {c : Hyperparameters} {fdh fdnh : Dict}
    (h : construct hps dh dnh hl = .ok (c, fdh, fdnh)) : c.hash_len = hl := by
  unfold construct at h
  split at h
  · exact absurd h (by simp)
  · split at h
    · rw [Except.ok.injEq, Prod.mk.injEq] at h
      rw [← h.1]
    · exact absurd h (by simp)

/-- Claim C4, amended (the claim's range [1,512] is narrowed to [1,128],
the number of hex characters of a SHA-512 digest): for every hashLength
in [1,128] and every validly constructed configuration, `get_hash`
returns a string of length hashLength equal to the first hashLength
characters of the full SHA-512 hex digest of the UTF-8-encoded canonical
serialization of the hashed subset. -/
theorem C4_hash_truncation_amended (hps dh dnh : Option Dict) (hl : Nat)
    (c : Hyperparameters) (fdh fdnh : Dict)
    (hc : construct hps dh dnh hl = .ok (c, fdh, fdnh))
    (h1 : 1 ≤ hl) (h2 : hl ≤ 128) :
    (get_hash c).length = hl ∧
    get_hash c =
      strTake (hexStr (sha512Bytes (utf8Encode (sorted_str_from_dict c.hash_hps)))) hl := by
  have hlen := construct_ok_inv hc
  constructor
  · rw [get_hash_length, hlen]
    omega
  · rw [get_hash, hlen, _generate_hash]

/-- Witness for C4 (amended) at a concrete input. -/
theorem C4_hash_truncation_amended_witness :
    (get_hash ⟨[("a", .vInt 1)], [], 10⟩).length = 10 ∧
    get_hash ⟨[("a", .vInt 1)], [], 10⟩ =
      strTake (hexStr (sha512Bytes (utf8Encode
        (sorted_str_from_dict ([] : Dict))))) 10 :=
  C4_hash_truncation_amended (some []) (some [("a", .vInt 1)]) (some []) 10
    ⟨[("a", .vInt 1)], [], 10⟩ [("a", .vInt 1)] [] rfl (by norm_num) (by norm_num)

/-- Counterexample to claim C4 as stated: at `hash_len = 200` (inside the
claim's range [1,512]) construction succeeds but `get_hash` returns the
whole 128-character digest, not a 200-character string. -/
theorem C4_hash_truncation_cex :
    construct (some []) (some [("a", .vInt 1)]) (some []) 200 =
      .ok (⟨[("a", .vInt 1)], [], 200⟩, [("a", .vInt 1)], []) ∧
    (get_hash ⟨[("a", .vInt 1)], [], 200⟩).length ≠ 200 := by
  refine ⟨rfl, ?_⟩
  rw [get_hash_length]
  norm_num

/-- Claim C1 (code bug): with `default_hash_hps = {'a': np.array([1, 3])}`
and override `{'a': np.array([1, 2])}` — an array override that differs
from its default in exactly one element — line 181's
`np.all(val != default_hps[key])` is `False`, so `_parse` leaves
`hps_to_hash` EMPTY, although the effective value differs from the
default and the claim (and the spec's element-wise rule) requires the key
to be included in the Hashed Subset. -/
theorem C1_array_one_element_diff_excluded :
    _parse (some [("a", .vArr [.vInt 1, .vInt 2])])
      (some [("a", .vArr [.vInt 1, .vInt 3])]) (some []) =
      .ok ⟨[("a", .vArr [.vInt 1, .vInt 2])], [],
        [("a", .vArr [.vInt 1, .vInt 3])], []⟩ ∧
    npAllNe (.vArr [.vInt 1, .vInt 2]) (.vArr [.vInt 1, .vInt 3]) = false :=
  ⟨rfl, rfl⟩

/-- Claim C6 (code bug): constructing with `default_non_hash_hps` absent
(`None`) and a valid `default_hash_hps` raises `AttributeError` at line
149 (`None.keys()`), although line 71 only requires at least one default
set and the claim says construction succeeds when exactly one is
supplied. -/
theorem C6_single_default_set_crashes :
    construct (some []) (some [("a", .vInt 1)]) none 10 =
      .error .attributeError ∧
    construct (some []) none (some [("a", .vInt 1)]) 10 =
      .error .attributeError :=
  ⟨rfl, rfl⟩

/-- Claim C7 (code bug): a successful construction with
`default_hash_hps = {'a': 1}` and `default_non_hash_hps = {'b': 2}`
leaves the caller's `default_hash_hps` equal to `{'a': 1, 'b': 2}`:
line 155 aliases it and line 156 `update`s it in place, so the
caller-supplied mapping is NOT left unchanged. -/
theorem C7_construct_mutates_default_hash_hps :
    construct (some []) (some [("a", .vInt 1)]) (some [("b", .vInt 2)]) 10 =
      .ok (⟨[("a", .vInt 1), ("b", .vInt 2)], [], 10⟩,
        [("a", .vInt 1), ("b", .vInt 2)], [("b", .vInt 2)]) ∧
    ([("a", .vInt 1), ("b", .vInt 2)] : Dict) ≠ [("a", .vInt 1)] :=
  ⟨rfl, fun h => by simpa using congrArg List.length h⟩

/-- Claim C9: constructing with the `hps` argument left at its default
`None` raises (`None.items()` at line 164 is an `AttributeError`), and
any successful construction must have been given an actual dict as
overrides. -/
theorem C9_none_overrides_raise (dh dnh : Dict) (hl : Nat)
    (hdisj : (keys dnh).any (fun k => (keys dh).contains k) = false) :
    construct none (some dh) (some dnh) hl = .error .attributeError ∧
    ∀ hps r, construct hps (some dh) (some dnh) hl = .ok r →
      ∃ m, hps = some m := by
  have h1 : construct none (some dh) (some dnh) hl = .error .attributeError := by
    have h2 : ¬ ∃ x ∈ keys dnh, x ∈ keys dh := by simpa using hdisj
    simp [construct, bothNone, _parse, h2]
  refine ⟨h1, ?_⟩
  intro hps r h
  match hps with
  | some m => exact ⟨m, rfl⟩
  | none => rw [h1] at h; exact absurd h (by simp)

/-- Witness for C9 at a concrete input. -/
theorem C9_none_overrides_raise_witness :
    construct none (some [("a", .vInt 1)]) (some []) 10 =
      .error .attributeError ∧
    ∀ hps r, construct hps (some [("a", .vInt 1)]) (some []) 10 = .ok r →
      ∃ m, hps = some m :=
  C9_none_overrides_raise [("a", .vInt 1)] [] 10 rfl

/-! Association-list dict lemmas. -/

theorem lookup_mem {d : Dict} {k : String} {v : Value}
    (h : List.lookup k d = some v) : (k, v) ∈ d := by
  induction d with
  | nil => simp at h
  | cons kv t ih =>
    obtain ⟨k', v'⟩ := kv
    rw [List.lookup] at h
    split at h
    · rename_i hbeq
      rw [Option.some.injEq] at h
      have : k = k' := by simpa using hbeq
      subst this
      subst h
      exact List.mem_cons_self _ _
    · exact List.mem_cons_of_mem _ (ih h)

theorem mem_keys_exists_lookup {d : Dict} {k : String} (h : k ∈ keys d) :
    ∃ v, List.lookup k d = some v := by
  induction d with
  | nil => simp [keys] at h
  | cons kv t ih =>
    obtain ⟨k', v'⟩ := kv
    rw [List.lookup]
    by_cases hk : k = k'
    · subst hk
      simp
    · have hmem : k ∈ keys t := by
        rw [keys, List.map_cons] at h
        rcases List.mem_cons.mp h with h' | h'
        · exact absurd h' hk
        · exact h'
      have hbeq : (k == k') = false := by simpa using hk
      rw [hbeq]
      exact ih hmem

theorem lookup_isSome_of_mem_keys {d : Dict} {k : String} (h : k ∈ keys d) :
    (List.lookup k d).isSome := by
  obtain ⟨v, hv⟩ := mem_keys_exists_lookup h
  simp [hv]

theorem mem_keys_of_lookup {d : Dict} {k : String} {v : Value}
    (h : List.lookup k d = some v) : k ∈ keys d := by
  have := lookup_mem h
  exact List.mem_map.mpr ⟨(k, v), this, rfl⟩

/-! Size bounds used to discharge fuel sufficiency. -/

theorem valueSize_pos (v : Value) : 1 ≤ valueSize v := by
  cases v <;> simp only [valueSize] <;> omega

theorem valueSize_le_of_mem {a : List Value} {x : Value} (h : x ∈ a) :
    valueSize x ≤ valueListSize a := by
  induction a with
  | nil => cases h
  | cons y t ih =>
    rcases List.mem_cons.mp h with h' | h'
    · subst h'
      simp only [valueListSize]
      omega
    · have := ih h'
      simp only [valueListSize]
      omega

theorem valueSize_le_of_entry_mem {d : Dict} {k : String} {v : Value}
    (h : (k, v) ∈ d) : valueSize v ≤ entryListSize d := by
  induction d with
  | nil => cases h
  | cons kv t ih =>
    rcases List.mem_cons.mp h with h' | h'
    · rw [← h']
      simp only [entryListSize]
      omega
    · have := ih h'
      simp only [entryListSize]
      omega

theorem valueSize_lookupD_le {d : Dict} {k : String} (h : k ∈ keys d) :
    valueSize (lookupD d k) ≤ entryListSize d := by
  obtain ⟨v, hv⟩ := mem_keys_exists_lookup h
  rw [lookupD, hv, Option.getD_some]
  exact valueSize_le_of_entry_mem (lookup_mem hv)

/-! The key order: code-point lexicographic comparison is total,
transitive and antisymmetric, so sorting is a function of the key
multiset only. -/

theorem keyLebL_total (a b : List Char) : keyLebL a b = true ∨ keyLebL b a = true := by
  induction a generalizing b with
  | nil => left; rfl
  | cons x xs ih =>
    cases b with
    | nil => right; rfl
    | cons y ys =>
      rcases Nat.lt_trichotomy x.toNat y.toNat with h | h | h
      · left; simp [keyLebL, h]
      · have h1 : ¬ x.toNat < y.toNat := by omega
        have h2 : ¬ y.toNat < x.toNat := by omega
        simpa [keyLebL, h1, h2] using ih ys
      · right; simp [keyLebL, h]

theorem keyLebL_trans {a b c : List Char} (h1 : keyLebL a b = true)
    (h2 : keyLebL b c = true) : keyLebL a c = true := by
  induction a generalizing b c with
  | nil => rfl
  | cons x xs ih =>
    cases b with
    | nil => simp [keyLebL] at h1
    | cons y ys =>
      cases c with
      | nil => simp [keyLebL] at h2
      | cons z zs =>
        simp only [keyLebL] at h1 h2 ⊢
        by_cases hxy : x.toNat < y.toNat
        · by_cases hyz : y.toNat < z.toNat
          · rw [if_pos (by omega)]
          · by_cases hzy : z.toNat < y.toNat
            · rw [if_neg hyz, if_pos hzy] at h2
              exact absurd h2 (by simp)
            · rw [if_pos (by omega : x.toNat < z.toNat)]
        · by_cases hyx : y.toNat < x.toNat
          · rw [if_neg hxy, if_pos hyx] at h1
            exact absurd h1 (by simp)
          · rw [if_neg hxy, if_neg hyx] at h1
            by_cases hyz : y.toNat < z.toNat
            · rw [if_pos (by omega)]
            · by_cases hzy : z.toNat < y.toNat
              · rw [if_neg hyz, if_pos hzy] at h2
                exact absurd h2 (by simp)
              · rw [if_neg hyz, if_neg hzy] at h2
                rw [if_neg (by omega), if_neg (by omega)]
                exact ih h1 h2

theorem keyLebL_antisymm {a b : List Char} (h1 : keyLebL a b = true)
    (h2 : keyLebL b a = true) : a = b := by
  induction a generalizing b with
  | nil =>
    cases b with
    | nil => rfl
    | cons y ys => simp [keyLebL] at h2
  | cons x xs ih =>
    cases b with
    | nil => simp [keyLebL] at h1
    | cons y ys =>
      simp only [keyLebL] at h1 h2
      by_cases hxy : x.toNat < y.toNat
      · rw [if_neg (by omega), if_pos hxy] at h2
        exact absurd h2 (by simp)
      · by_cases hyx : y.toNat < x.toNat
        · rw [if_neg hxy, if_pos hyx] at h1
          exact absurd h1 (by simp)
        · rw [if_neg hxy, if_neg hyx] at h1
          rw [if_neg hyx, if_neg hxy] at h2
          have hchar : x = y := by
            apply Char.ext
            apply UInt32.ext
            have : x.toNat = y.toNat := by omega
            simpa [Char.toNat] using this
          rw [hchar, ih h1 h2]

instance : IsTotal String (fun a b => keyLe a b = true) :=
  ⟨fun a b => keyLebL_total a.data b.data⟩

instance : IsTrans String (fun a b => keyLe a b = true) :=
  ⟨fun _ _ _ => keyLebL_trans⟩

instance : IsAntisymm String (fun a b => keyLe a b = true) :=
  ⟨fun _ _ h1 h2 => String.ext (keyLebL_antisymm h1 h2)⟩

theorem sortKeys_perm (ks : List String) : (sortKeys ks).Perm ks :=
  List.perm_insertionSort _ _

theorem sortKeys_sorted (ks : List String) :
    List.Sorted (fun a b => keyLe a b = true) (sortKeys ks) :=
  List.sorted_insertionSort _ _

theorem sortKeys_eq_of_perm {ks1 ks2 : List String} (h : ks1.Perm ks2) :
    sortKeys ks1 = sortKeys ks2 :=
  List.eq_of_perm_of_sorted
    ((sortKeys_perm ks1).trans (h.trans (sortKeys_perm ks2).symm))
    (sortKeys_sorted _) (sortKeys_sorted _)

/-! Content equivalence of values: same key-value content at every level,
irrespective of dict entry order.  This is the formal counterpart of
"mappings containing the same (key, value) content but with keys inserted
in different orders". -/

/-- Two values have the same content: equal scalars, element-wise
equivalent arrays, and dicts whose key lists are permutations with
pointwise equivalent looked-up values. -/
inductive EquivVal : Value → Value → Prop where
  | vbool (b : Bool) : EquivVal (.vBool b) (.vBool b)
  | vint (n : Int) : EquivVal (.vInt n) (.vInt n)
  | vstr (s : String) : EquivVal (.vStr s) (.vStr s)
  | vnone : EquivVal .vNone .vNone
  | varr (a1 a2 : List Value) (hlen : a1.length = a2.length)
      (hel : ∀ (i : Nat) (h1 : i < a1.length) (h2 : i < a2.length),
        EquivVal (a1.get ⟨i, h1⟩) (a2.get ⟨i, h2⟩)) :
      EquivVal (.vArr a1) (.vArr a2)
  | vdict (l1 l2 : Dict) (hk : (keys l1).Perm (keys l2))
      (hv : ∀ (k : String) (v1 v2 : Value), List.lookup k l1 = some v1 →
        List.lookup k l2 = some v2 → EquivVal v1 v2) :
      EquivVal (.vDict l1) (.vDict l2)

/-- Content equivalence of dicts. -/
def DictEquiv (d1 d2 : Dict) : Prop := EquivVal (.vDict d1) (.vDict d2)

/-! Serializer fuel congruence and unfolding. -/

theorem strOfValF_congr (N : Nat) : ∀ (v : Value) (n m : Nat), valueSize v ≤ N →
    valueSize v ≤ n → valueSize v ≤ m → strOfValF n v = strOfValF m v := by
  induction N with
  | zero =>
    intro v n m hN _ _
    have := valueSize_pos v
    omega
  | succ N ih =>
    intro v n m hN hn hm
    have hp := valueSize_pos v
    obtain ⟨n', rfl⟩ : ∃ n', n = n' + 1 := ⟨n - 1, by omega⟩
    obtain ⟨m', rfl⟩ : ∃ m', m = m' + 1 := ⟨m - 1, by omega⟩
    cases v with
    | vBool b => rfl
    | vInt i => rfl
    | vStr s => rfl
    | vNone => rfl
    | vArr a =>
      simp only [strOfValF]
      have hmap : a.map (strOfValF n') = a.map (strOfValF m') := by
        apply List.map_congr_left
        intro x hx
        have hxs := valueSize_le_of_mem hx
        have hsz : valueSize (Value.vArr a) = valueListSize a + 1 := rfl
        exact ih x n' m' (by omega) (by omega) (by omega)
      rw [hmap]
    | vDict d =>
      simp only [strOfValF]
      have hmap : (sortKeys (keys d)).map (fun k => k ++ ": " ++ strOfValF n' (lookupD d k)) =
          (sortKeys (keys d)).map (fun k => k ++ ": " ++ strOfValF m' (lookupD d k)) := by
        apply List.map_congr_left
        intro k hk
        have hkm : k ∈ keys d := (sortKeys_perm (keys d)).subset hk
        have hxs := valueSize_lookupD_le hkm
        have hsz : valueSize (Value.vDict d) = entryListSize d + 1 := rfl
        rw [ih (lookupD d k) n' m' (by omega) (by omega) (by omega)]
      rw [hmap]

theorem strOfValF_eq_strOfVal {v : Value} {n : Nat} (h : valueSize v ≤ n) :
    strOfValF n v = strOfVal v :=
  strOfValF_congr n v n (valueSize v) (by omega) h (by omega)

theorem strOfVal_arr (a : List Value) :
    strOfVal (.vArr a) = "[" ++ String.intercalate " " (a.map strOfVal) ++ "]" := by
  rw [strOfVal]
  show strOfValF (valueListSize a + 1) (.vArr a) = _
  simp only [strOfValF]
  have hmap : a.map (strOfValF (valueListSize a)) = a.map strOfVal := by
    apply List.map_congr_left
    intro x hx
    exact strOfValF_eq_strOfVal (valueSize_le_of_mem hx)
  rw [hmap]

theorem strOfVal_dict (d : Dict) :
    strOfVal (.vDict d) =
      "\x7b" ++ String.intercalate ", "
        ((sortKeys (keys d)).map (fun k => k ++ ": " ++ strOfVal (lookupD d k))) ++
      "\x7d" := by
  rw [strOfVal]
  show strOfValF (entryListSize d + 1) (.vDict d) = _
  simp only [strOfValF]
  have hmap : (sortKeys (keys d)).map
        (fun k => k ++ ": " ++ strOfValF (entryListSize d) (lookupD d k)) =
      (sortKeys (keys d)).map (fun k => k ++ ": " ++ strOfVal (lookupD d k)) := by
    apply List.map_congr_left
    intro k hk
    have hkm : k ∈ keys d := (sortKeys_perm (keys d)).subset hk
    rw [strOfValF_eq_strOfVal (valueSize_lookupD_le hkm)]
  rw [hmap]

/-- Content-equivalent values have identical canonical strings. -/
theorem strOfVal_eq_of_equiv {v1 v2 : Value} (he : EquivVal v1 v2) :
    strOfVal v1 = strOfVal v2 := by
  induction he with
  | vbool b => rfl
  | vint n => rfl
  | vstr s => rfl
  | vnone => rfl
  | varr a1 a2 hlen hel ih =>
    rw [strOfVal_arr, strOfVal_arr]
    have hmap : a1.map strOfVal = a2.map strOfVal := by
      apply List.ext_get (by simpa using hlen)
      intro i h1 h2
      simp only [List.get_eq_getElem, List.getElem_map]
      exact ih i (by simpa using h1) (by simpa using h2)
    rw [hmap]
  | vdict l1 l2 hk hv ih =>
    rw [strOfVal_dict, strOfVal_dict]
    have hs : sortKeys (keys l1) = sortKeys (keys l2) := sortKeys_eq_of_perm hk
    rw [← hs]
    have hmap : (sortKeys (keys l1)).map (fun k => k ++ ": " ++ strOfVal (lookupD l1 k)) =
        (sortKeys (keys l1)).map (fun k => k ++ ": " ++ strOfVal (lookupD l2 k)) := by
      apply List.map_congr_left
      intro k hkmem
      have hk1 : k ∈ keys l1 := (sortKeys_perm (keys l1)).subset hkmem
      have hk2 : k ∈ keys l2 := hk.mem_iff.mp hk1
      obtain ⟨w1, hw1⟩ := mem_keys_exists_lookup hk1
      obtain ⟨w2, hw2⟩ := mem_keys_exists_lookup hk2
      have e1 : lookupD l1 k = w1 := by simp [lookupD, hw1]
      have e2 : lookupD l2 k = w2 := by simp [lookupD, hw2]
      rw [e1, e2, ih k w1 w2 hw1 hw2]
    rw [hmap]

/-- Claim C2: content-equivalent dicts — same (key, value) content, any
insertion order, including inside nested sub-mappings — have identical
canonical serializations and identical SHA-512 fingerprints. -/
theorem C2_canonical_order_independent (d1 d2 : Dict) (he : DictEquiv d1 d2) :
    sorted_str_from_dict d1 = sorted_str_from_dict d2 ∧
    _generate_hash d1 = _generate_hash d2 := by
  have hstr : sorted_str_from_dict d1 = sorted_str_from_dict d2 :=
    strOfVal_eq_of_equiv he
  exact ⟨hstr, by rw [_generate_hash, hstr, ← _generate_hash]⟩

/-! Lemmas for claim C3 (default-omission stability). -/

theorem keys_append (d1 d2 : Dict) : keys (d1 ++ d2) = keys d1 ++ keys d2 := by
  simp [keys]

theorem dictSet_append_of_not_mem {d : Dict} {k : String} (h : k ∉ keys d)
    (v : Value) : dictSet d k v = d ++ [(k, v)] := by
  induction d with
  | nil => rfl
  | cons kv t ih =>
    obtain ⟨k', v'⟩ := kv
    have hk : k ∉ keys t ∧ k' ≠ k := by
      rw [keys, List.map_cons] at h
      constructor
      · exact fun hc => h (List.mem_cons_of_mem _ hc)
      · exact fun hc => h (by rw [hc]; exact List.mem_cons_self _ _)
    rw [dictSet, if_neg hk.2, ih hk.1, List.cons_append]

theorem dictUpdate_eq_append {other : Dict} (hnd : (keys other).Nodup) :
    ∀ {d : Dict}, (∀ x ∈ keys other, x ∉ keys d) → dictUpdate d other = d ++ other := by
  induction other with
  | nil => intro d _; simp [dictUpdate]
  | cons kv t ih =>
    intro d hdisj
    obtain ⟨k', v'⟩ := kv
    rw [keys, List.map_cons] at hnd hdisj
    have hstep : dictSet d k' v' = d ++ [(k', v')] :=
      dictSet_append_of_not_mem (hdisj k' (List.mem_cons_self _ _)) v'
    have hrest : ∀ x ∈ keys t, x ∉ keys (d ++ [(k', v')]) := by
      intro x hx
      rw [keys_append]
      intro hc
      rcases List.mem_append.mp hc with hc | hc
      · exact hdisj x (List.mem_cons_of_mem _ hx) hc
      · have : x = k' := by simpa [keys] using hc
        subst this
        exact (List.nodup_cons.mp hnd).1 hx
    have : dictUpdate d ((k', v') :: t) = dictUpdate (dictSet d k' v') t := rfl
    rw [this, hstep, ih (List.nodup_cons.mp hnd).2 hrest, List.append_assoc]
    rfl

theorem lookup_skip_middle {d1 d2 : Dict} {key k : String} (hne : key ≠ k)
    (v : Value) :
    List.lookup key (d1 ++ (k, v) :: d2) = List.lookup key (d1 ++ d2) := by
  induction d1 with
  | nil =>
    rw [List.nil_append, List.nil_append, List.lookup]
    have : (key == k) = false := by simpa using hne
    rw [this]
  | cons kv t ih =>
    obtain ⟨k', v'⟩ := kv
    rw [List.cons_append, List.cons_append, List.lookup, List.lookup]
    cases hbeq : key == k'
    · exact ih
    · rfl

theorem contains_append_singleton {l : List String} {key k : String}
    (hne : key ≠ k) : (l ++ [k]).contains key = l.contains key := by
  simp [List.contains_eq_any_beq, List.any_append, hne]

theorem parseLoop_hth_eq (dp1 dp2 : Dict) (hkl1 hkl2 : List String) :
    ∀ (entries : List (String × Value)) (hps1 hps2 hth : Dict),
    (∀ kv ∈ entries, (keys dp1).contains kv.1 = true ∧
      (keys dp2).contains kv.1 = true ∧
      lookupD dp1 kv.1 = lookupD dp2 kv.1 ∧
      hkl1.contains kv.1 = hkl2.contains kv.1) →
    ∃ a1 a2 b, parseLoop dp1 hkl1 entries hps1 hth = .ok (a1, b) ∧
      parseLoop dp2 hkl2 entries hps2 hth = .ok (a2, b) := by
  intro entries
  induction entries with
  | nil => intro hps1 hps2 hth _; exact ⟨hps1, hps2, hth, rfl, rfl⟩
  | cons kv rest ih =>
    intro hps1 hps2 hth hcond
    obtain ⟨key, v⟩ := kv
    obtain ⟨hc1, hc2, hlk, hhk⟩ := hcond (key, v) (List.mem_cons_self _ _)
    rw [parseLoop, parseLoop]
    rw [if_pos hc1, if_pos hc2]
    rw [hlk, hhk]
    exact ih _ _ _ (fun kv hm => hcond kv (List.mem_cons_of_mem _ hm))

/-- Claim C3: adding a fresh key `k` with default value `v` to
`default_hash_hps`, with no corresponding override, does not change
`get_hash()`: both constructions succeed and produce identical hashes.
Hypotheses: the two default dicts are disjoint and have well-formed
(duplicate-free) key lists, every override key has a default, and `k` is
fresh for both default dicts and for the overrides. -/
theorem C3_default_omission_stability (dh dnh O : Dict) (k : String) (v : Value)
    (hl : Nat) (hdisj : ∀ x ∈ keys dnh, x ∉ keys dh)
    (hnd : (keys dnh).Nodup)
    (hO : ∀ x ∈ keys O, x ∈ keys dh ∨ x ∈ keys dnh)
    (hk1 : k ∉ keys dh) (hk2 : k ∉ keys dnh) (hk3 : k ∉ keys O) :
    ∃ c1 c2 r1 r2, construct (some O) (some dh) (some dnh) hl = .ok (c1, r1) ∧
      construct (some O) (some (dh ++ [(k, v)])) (some dnh) hl = .ok (c2, r2) ∧
      get_hash c1 = get_hash c2 := by
  have hkeysext : keys (dh ++ [(k, v)]) = keys dh ++ [k] := by
    rw [keys_append]; rfl
  have hdisj2 : ∀ x ∈ keys dnh, x ∉ keys (dh ++ [(k, v)]) := by
    intro x hx
    rw [hkeysext]
    intro hc
    rcases List.mem_append.mp hc with hc | hc
    · exact hdisj x hx hc
    · exact hk2 (by rwa [(by simpa using hc : x = k)] at hx)
  have hany1 : ((keys dnh).any fun x => (keys dh).contains x) = false := by
    rw [List.any_eq_false]
    intro x hx
    simp only [Bool.not_eq_true]
    cases hc : (keys dh).contains x
    · rfl
    · exact absurd (List.mem_of_elem_eq_true hc) (hdisj x hx)
  have hany2 : ((keys dnh).any fun x => (keys (dh ++ [(k, v)])).contains x) = false := by
    rw [List.any_eq_false]
    intro x hx
    simp only [Bool.not_eq_true]
    cases hc : (keys (dh ++ [(k, v)])).contains x
    · rfl
    · exact absurd (List.mem_of_elem_eq_true hc) (hdisj2 x hx)
  have hupd1 : dictUpdate dh dnh = dh ++ dnh := dictUpdate_eq_append hnd hdisj
  have hupd2 : dictUpdate (dh ++ [(k, v)]) dnh = dh ++ (k, v) :: dnh := by
    rw [dictUpdate_eq_append hnd hdisj2, List.append_assoc]
    rfl
  have hcond : ∀ kv ∈ O, (keys (dh ++ dnh)).contains kv.1 = true ∧
      (keys (dh ++ (k, v) :: dnh)).contains kv.1 = true ∧
      lookupD (dh ++ dnh) kv.1 = lookupD (dh ++ (k, v) :: dnh) kv.1 ∧
      (keys dh).contains kv.1 = (keys (dh ++ [(k, v)])).contains kv.1 := by
    intro kv hm
    have hkm : kv.1 ∈ keys O := List.mem_map.mpr ⟨kv, hm, rfl⟩
    have hne : kv.1 ≠ k := fun hc => hk3 (hc ▸ hkm)
    refine ⟨?_, ?_, ?_, ?_⟩
    · apply List.elem_eq_true_of_mem
      rw [keys_append, List.mem_append]
      exact hO kv.1 hkm
    · apply List.elem_eq_true_of_mem
      rw [keys_append]
      rcases hO kv.1 hkm with h | h
      · exact List.mem_append.mpr (Or.inl h)
      · exact List.mem_append.mpr (Or.inr (by
          rw [keys, List.map_cons]
          exact List.mem_cons_of_mem _ h))
    · rw [lookupD, lookupD, lookup_skip_middle hne]
    · rw [hkeysext, contains_append_singleton hne]
  obtain ⟨a1, a2, b, hp1, hp2⟩ :=
    parseLoop_hth_eq (dh ++ dnh) (dh ++ (k, v) :: dnh) (keys dh)
      (keys (dh ++ [(k, v)])) O (dh ++ dnh) (dh ++ (k, v) :: dnh) [] hcond
  refine ⟨⟨a1, b, hl⟩, ⟨a2, b, hl⟩, (dh ++ dnh, dnh), (dh ++ (k, v) :: dnh, dnh),
    ?_, ?_, rfl⟩
  · show construct (some O) (some dh) (some dnh) hl = _
    rw [construct]
    rw [if_neg (by simp [bothNone])]
    rw [_parse]
    simp only [hany1, if_neg (Bool.false_ne_true ·)]
    rw [hupd1, hp1]
  · rw [construct]
    rw [if_neg (by simp [bothNone])]
    rw [_parse]
    simp only [hany2, if_neg (Bool.false_ne_true ·)]
    rw [hupd2, hp2]

/-- Witness for C3 at a concrete input. -/
theorem C3_default_omission_stability_witness :
    ∃ c1 c2 r1 r2,
      construct (some [("lr", .vInt 2)]) (some [("lr", .vInt 1)])
        (some [("log", .vStr "x")]) 10 = .ok (c1, r1) ∧
      construct (some [("lr", .vInt 2)])
        (some ([("lr", .vInt 1)] ++ [("depth", .vInt 3)]))
        (some [("log", .vStr "x")]) 10 = .ok (c2, r2) ∧
      get_hash c1 = get_hash c2 :=
  C3_default_omission_stability [("lr", .vInt 1)] [("log", .vStr "x")]
    [("lr", .vInt 2)] "depth" (.vInt 3) 10 (by decide) (by decide) (by decide)
    (by decide) (by decide) (by decide)

/-- Decidable checker for `EquivVal` (sound; used to discharge
equivalence hypotheses on concrete inputs). -/
def equivBF : Nat → Value → Value → Bool
  | 0, _, _ => false
  | fuel + 1, v, w =>
    match v, w with
    | .vBool a, .vBool b => a == b
    | .vInt a, .vInt b => a == b
    | .vStr a, .vStr b => a == b
    | .vNone, .vNone => true
    | .vArr a, .vArr b =>
      a.length == b.length && (List.zip a b).all (fun p => equivBF fuel p.1 p.2)
    | .vDict d1, .vDict d2 =>
      (keys d1).isPerm (keys d2) &&
        (keys d1).all (fun k =>
          match List.lookup k d1, List.lookup k d2 with
          | some w1, some w2 => equivBF fuel w1 w2
          | _, _ => false)
    | _, _ => false

theorem equivBF_sound : ∀ (n : Nat) {v w : Value}, equivBF n v w = true → EquivVal v w := by
  intro n
  induction n with
  | zero =>
    intro v w h
    simp [equivBF] at h
  | succ n ih =>
    intro v w h
    cases v <;> cases w <;> simp only [equivBF] at h <;>
      try exact (Bool.false_ne_true h).elim
    case vBool.vBool a b =>
      rw [beq_iff_eq] at h
      subst h
      exact EquivVal.vbool _
    case vInt.vInt a b =>
      rw [beq_iff_eq] at h
      subst h
      exact EquivVal.vint _
    case vStr.vStr a b =>
      rw [beq_iff_eq] at h
      subst h
      exact EquivVal.vstr _
    case vNone.vNone => exact EquivVal.vnone
    case vArr.vArr a b =>
      rw [Bool.and_eq_true, beq_iff_eq] at h
      obtain ⟨hlen, hall⟩ := h
      refine EquivVal.varr a b hlen (fun i h1 h2 => ?_)
      have hz : i < (List.zip a b).length := by
        rw [List.length_zip]
        omega
      have hmem := List.getElem_mem hz
      have hpair : (List.zip a b)[i] = (a[i], b[i]) := List.getElem_zip
      rw [hpair] at hmem
      have := List.all_eq_true.mp hall _ hmem
      simpa using ih this
    case vDict.vDict d1 d2 =>
      rw [Bool.and_eq_true] at h
      obtain ⟨hperm, hall⟩ := h
      refine EquivVal.vdict d1 d2 (List.isPerm_iff.mp hperm) (fun k v1 v2 h1 h2 => ?_)
      have hk1 : k ∈ keys d1 := mem_keys_of_lookup h1
      have := List.all_eq_true.mp hall k hk1
      rw [h1, h2] at this
      exact ih this

/-- Witness for C2 at a concrete pair of dicts with the same content but
different insertion orders at both nesting levels. -/
theorem C2_canonical_order_independent_witness :
    sorted_str_from_dict
        [("b", .vDict [("x", .vInt 1), ("y", .vInt 2)]), ("a", .vInt 5)] =
      sorted_str_from_dict
        [("a", .vInt 5), ("b", .vDict [("y", .vInt 2), ("x", .vInt 1)])] ∧
    _generate_hash
        [("b", .vDict [("x", .vInt 1), ("y", .vInt 2)]), ("a", .vInt 5)] =
      _generate_hash
        [("a", .vInt 5), ("b", .vDict [("y", .vInt 2), ("x", .vInt 1)])] :=
  C2_canonical_order_independent _ _ (equivBF_sound 3 (by decide))

/-! Command-line boolean parsing (`str2bool`, lines 333-339). -/

/-- Python `v.lower()` restricted to per-character lowering (agrees with
Python on the ASCII tokens `str2bool` compares against). -/
def pyLower (s : String) : String := ⟨s.data.map Char.toLower⟩

/-- `str2bool` (lines 333-339): maps the lowercased value over the two
token tuples, raising `argparse.ArgumentTypeError` otherwise. -/
def str2bool (v : String) : Except PyErr Bool :=
  if ["yes", "true", "t", "y", "1"].contains (pyLower v) then .ok true
  else if ["no", "false", "f", "n", "0"].contains (pyLower v) then .ok false
  else .error .argumentTypeError

/-- Claim C8: the command-line boolean parser maps every letter-case
variant of yes/true/t/y/1 to `True`, every letter-case variant of
no/false/f/n/0 to `False`, and raises a usage error
(`argparse.ArgumentTypeError`) on every other token. -/
theorem C8_str2bool_tokens (v : String) :
    (pyLower v ∈ ["yes", "true", "t", "y", "1"] → str2bool v = .ok true) ∧
    (pyLower v ∈ ["no", "false", "f", "n", "0"] → str2bool v = .ok false) ∧
    (pyLower v ∉ ["yes", "true", "t", "y", "1"] →
      pyLower v ∉ ["no", "false", "f", "n", "0"] →
      str2bool v = .error .argumentTypeError) := by
  refine ⟨fun h1 => ?_, fun h2 => ?_, fun h1 h2 => ?_⟩
  · simp only [str2bool, if_pos (List.elem_eq_true_of_mem h1)]
  · have hne : ¬ (["yes", "true", "t", "y", "1"].contains (pyLower v) = true) := by
      intro hc
      have hc' := List.mem_of_elem_eq_true hc
      have hm1 : pyLower v = "yes" ∨ pyLower v = "true" ∨ pyLower v = "t" ∨
          pyLower v = "y" ∨ pyLower v = "1" := by simpa using hc'
      have hm2 : pyLower v = "no" ∨ pyLower v = "false" ∨ pyLower v = "f" ∨
          pyLower v = "n" ∨ pyLower v = "0" := by simpa using h2
      rcases hm1 with h | h | h | h | h <;> rw [h] at hm2 <;> simp_all
    simp only [str2bool]
    rw [if_neg hne, if_pos (List.elem_eq_true_of_mem h2)]
  · have hn1 : ¬ (["yes", "true", "t", "y", "1"].contains (pyLower v) = true) :=
      fun hc => h1 (List.mem_of_elem_eq_true hc)
    have hn2 : ¬ (["no", "false", "f", "n", "0"].contains (pyLower v) = true) :=
      fun hc => h2 (List.mem_of_elem_eq_true hc)
    simp only [str2bool]
    rw [if_neg hn1, if_neg hn2]

/-- Witness for C8 at the spec's concrete tokens. -/
theorem C8_str2bool_tokens_witness :
    str2bool "TRUE" = .ok true ∧ str2bool "yes" = .ok true ∧
    str2bool "1" = .ok true ∧ str2bool "No" = .ok false ∧
    str2bool "maybe" = .error .argumentTypeError :=
  ⟨(C8_str2bool_tokens "TRUE").1 (by decide),
   (C8_str2bool_tokens "yes").1 (by decide),
   (C8_str2bool_tokens "1").1 (by decide),
   (C8_str2bool_tokens "No").2.1 (by decide),
   (C8_str2bool_tokens "maybe").2.2 (by decide) (by decide)⟩

/-! Path codec: `parse_command_line`'s nested-reconstruction helpers
(`parse_key`, `assign_leaf`, `add_helper`, `reconstruct_helper`,
lines 382-447). -/

/-- `':' in key`. -/
def hasColon (key : String) : Bool := key.data.contains ':'

/-- `parse_key` (lines 395-412): split at the FIRST colon;
`dict_name = key[:first_colon_idx]`, `rem_key = key[first_colon_idx+1:]`. -/
def parse_key (key : String) : String × String :=
  (⟨key.data.takeWhile (fun c => c != ':')⟩,
   ⟨(key.data.dropWhile (fun c => c != ':')).tail⟩)

/-- Fuel-based body of `assign_leaf` (lines 414-424). -/
def assign_leafF : Nat → String → Value → Value
  | 0, _, _ => .vNone
  | fuel + 1, key, val =>
    if hasColon key then
      .vDict [((parse_key key).1, assign_leafF fuel (parse_key key).2 val)]
    else
      .vDict [(key, val)]

/-- `assign_leaf` (lines 414-424): build the nested singleton dict for a
fresh colon-delimited path. -/
def assign_leaf (key : String) (val : Value) : Value :=
  assign_leafF (key.data.length + 1) key val

/-- Fuel-based body of `add_helper` (lines 426-440).  When the head
segment names an existing entry that is not a dict, the Python recursion
raises `TypeError` (indexing into a non-dict). -/
def add_helperF : Nat → Dict → String → Value → Except PyErr Dict
  | 0, _, _, _ => .error .typeError
  | fuel + 1, D, key, val =>
    if hasColon key then
      let dict_name := (parse_key key).1
      let rem_key := (parse_key key).2
      if (keys D).contains dict_name then
        match List.lookup dict_name D with
        | some (.vDict D2) =>
          match add_helperF fuel D2 rem_key val with
          | .ok D3 => .ok (dictSet D dict_name (.vDict D3))
          | .error e => .error e
        | _ => .error .typeError
      else
        .ok (dictSet D dict_name (assign_leaf rem_key val))
    else
      .ok (dictSet D key val)

/-- `add_helper` (lines 426-440), functional result. -/
def add_helper (D : Dict) (key : String) (val : Value) : Except PyErr Dict :=
  add_helperF (key.data.length + 1) D key val

/-- One loop step of `reconstruct_helper` applied to an already-obtained
(or failed) accumulator. -/
def addE (r : Except PyErr Dict) (key : String) (val : Value) : Except PyErr Dict :=
  match r with
  | .ok D => add_helper D key val
  | .error e => .error e

/-- The loop of `reconstruct_helper` (lines 442-445) over the flat items,
starting from the given accumulator. -/
def foldAdd : Except PyErr Dict → List (String × Value) → Except PyErr Dict
  | r, [] => r
  | r, kv :: t => foldAdd (addE r kv.1 kv.2) t

/-- `reconstruct_helper` (lines 382-447): expand a flat dict into a
nested one, starting from `D_unflattened = dict()`. -/
def reconstruct_helper (D_flat : List (String × Value)) : Except PyErr Dict :=
  foldAdd (.ok []) D_flat

/-- Fuel-based trace of the `pdb.set_trace()` breakpoint at lines 430-431:
`true` iff executing `add_helper` on this dict and key reaches the
`dict_name == 'data_hps'` test with a positive outcome at any recursion
level. -/
def add_helper_hitsF : Nat → Dict → String → Bool
  | 0, _, _ => false
  | fuel + 1, D, key =>
    if hasColon key then
      let dict_name := (parse_key key).1
      let rem_key := (parse_key key).2
      (dict_name == "data_hps") ||
        (if (keys D).contains dict_name then
          match List.lookup dict_name D with
          | some (.vDict D2) => add_helper_hitsF fuel D2 rem_key
          | _ => false
        else false)
    else false

/-- Whether `add_helper` triggers the interactive debugger. -/
def add_helper_hits (D : Dict) (key : String) : Bool :=
  add_helper_hitsF (key.data.length + 1) D key

theorem dropWhile_len_le (p : Char → Bool) (l : List Char) :
    (l.dropWhile p).length ≤ l.length := by
  induction l with
  | nil => simp [List.dropWhile]
  | cons x xs ih =>
    simp only [List.dropWhile]
    cases p x <;> simp <;> omega

theorem parse_key_rem_lt {key : String} (h : hasColon key = true) :
    (parse_key key).2.data.length < key.data.length := by
  simp only [hasColon] at h
  simp only [parse_key]
  have h2 : key.data.dropWhile (fun c => c != ':') ≠ [] := by
    intro hnil
    rw [List.dropWhile_eq_nil_iff] at hnil
    rw [List.contains_eq_any_beq, List.any_eq_true] at h
    obtain ⟨c, hc, hcc⟩ := h
    have h3 := hnil c hc
    rw [beq_iff_eq] at hcc
    subst hcc
    simp at h3
  have h3 : (key.data.dropWhile (fun c => c != ':')).length ≤ key.data.length :=
    dropWhile_len_le _ _
  cases hd : key.data.dropWhile (fun c => c != ':') with
  | nil => exact absurd hd h2
  | cons x xs =>
    rw [hd] at h3
    simp only [List.length_cons] at h3
    simp only [List.tail_cons]
    omega

theorem hasColon_of_nil_data {key : String} (h : key.data.length = 0) :
    hasColon key = false := by
  rw [hasColon, List.length_eq_zero.mp h]
  rfl

theorem assign_leafF_congr : ∀ (N : Nat) (key : String) (val : Value) (n m : Nat),
    key.data.length ≤ N → key.data.length < n → key.data.length < m →
    assign_leafF n key val = assign_leafF m key val := by
  intro N
  induction N with
  | zero =>
    intro key val n m hN hn hm
    obtain ⟨n', rfl⟩ : ∃ x, n = x + 1 := ⟨n - 1, by omega⟩
    obtain ⟨m', rfl⟩ : ∃ x, m = x + 1 := ⟨m - 1, by omega⟩
    have hc := hasColon_of_nil_data (by omega : key.data.length = 0)
    simp only [assign_leafF, hc]
    rfl
  | succ N ih =>
    intro key val n m hN hn hm
    obtain ⟨n', rfl⟩ : ∃ x, n = x + 1 := ⟨n - 1, by omega⟩
    obtain ⟨m', rfl⟩ : ∃ x, m = x + 1 := ⟨m - 1, by omega⟩
    simp only [assign_leafF]
    cases hc : hasColon key
    · rfl
    · have hlt := parse_key_rem_lt hc
      rw [ih (parse_key key).2 val n' m' (by omega) (by omega) (by omega)]

theorem assign_leaf_colon {key : String} (h : hasColon key = true) (val : Value) :
    assign_leaf key val =
      .vDict [((parse_key key).1, assign_leaf (parse_key key).2 val)] := by
  rw [assign_leaf]
  have hlt := parse_key_rem_lt h
  show assign_leafF (key.data.length + 1) key val = _
  simp only [assign_leafF, h, if_true]
  rw [assign_leafF_congr key.data.length (parse_key key).2 val
    key.data.length ((parse_key key).2.data.length + 1)
    (by omega) (by omega) (by omega)]
  rfl

theorem assign_leaf_no_colon {key : String} (h : hasColon key = false) (val : Value) :
    assign_leaf key val = .vDict [(key, val)] := by
  rw [assign_leaf]
  show assign_leafF (key.data.length + 1) key val = _
  simp only [assign_leafF, h]
  rfl

theorem add_helperF_congr : ∀ (N : Nat) (key : String) (D : Dict) (val : Value) (n m : Nat),
    key.data.length ≤ N → key.data.length < n → key.data.length < m →
    add_helperF n D key val = add_helperF m D key val := by
  intro N
  induction N with
  | zero =>
    intro key D val n m hN hn hm
    obtain ⟨n', rfl⟩ : ∃ x, n = x + 1 := ⟨n - 1, by omega⟩
    obtain ⟨m', rfl⟩ : ∃ x, m = x + 1 := ⟨m - 1, by omega⟩
    have hc := hasColon_of_nil_data (by omega : key.data.length = 0)
    simp only [add_helperF, hc]
    rfl
  | succ N ih =>
    intro key D val n m hN hn hm
    obtain ⟨n', rfl⟩ : ∃ x, n = x + 1 := ⟨n - 1, by omega⟩
    obtain ⟨m', rfl⟩ : ∃ x, m = x + 1 := ⟨m - 1, by omega⟩
    cases hc : hasColon key
    · simp only [add_helperF, hc]
      rfl
    · have hlt := parse_key_rem_lt hc
      cases hmem : (keys D).contains (parse_key key).1
      · simp only [add_helperF, hc, hmem]
        rfl
      · cases hlk : List.lookup (parse_key key).1 D with
        | none => simp only [add_helperF, hc, hmem, hlk]
        | some w =>
          cases w with
          | vDict D2 =>
            simp only [add_helperF, hc, hmem, hlk]
            rw [ih (parse_key key).2 D2 val n' m' (by omega) (by omega) (by omega)]
          | vBool b => simp only [add_helperF, hc, hmem, hlk]
          | vInt i => simp only [add_helperF, hc, hmem, hlk]
          | vStr s => simp only [add_helperF, hc, hmem, hlk]
          | vNone => simp only [add_helperF, hc, hmem, hlk]
          | vArr a => simp only [add_helperF, hc, hmem, hlk]

theorem add_helperF_eq_add_helper {key : String} {n : Nat}
    (h : key.data.length < n) (D : Dict) (val : Value) :
    add_helperF n D key val = add_helper D key val :=
  add_helperF_congr (key.data.length) key D val n (key.data.length + 1)
    (by omega) h (by omega)

theorem add_helper_no_colon {key : String} (h : hasColon key = false)
    (D : Dict) (val : Value) : add_helper D key val = .ok (dictSet D key val) := by
  rw [add_helper]
  show add_helperF (key.data.length + 1) D key val = _
  simp only [add_helperF, h]
  rfl

theorem add_helper_colon_not_mem {key : String} (h : hasColon key = true)
    {D : Dict} (hm : (keys D).contains (parse_key key).1 = false)
    (val : Value) :
    add_helper D key val =
      .ok (dictSet D (parse_key key).1 (assign_leaf (parse_key key).2 val)) := by
  rw [add_helper]
  show add_helperF (key.data.length + 1) D key val = _
  simp only [add_helperF, h, if_true, hm]
  rfl

theorem add_helper_colon_dict {key : String} (h : hasColon key = true)
    {D : Dict} {D2 : Dict}
    (hlk : List.lookup (parse_key key).1 D = some (.vDict D2)) (val : Value) :
    add_helper D key val =
      match add_helper D2 (parse_key key).2 val with
      | .ok D3 => .ok (dictSet D (parse_key key).1 (.vDict D3))
      | .error e => .error e := by
  have hmem : (keys D).contains (parse_key key).1 = true :=
    List.elem_eq_true_of_mem (mem_keys_of_lookup hlk)
  have hlt := parse_key_rem_lt h
  rw [add_helper]
  show add_helperF (key.data.length + 1) D key val = _
  simp only [add_helperF, h, if_true, hmem, hlk]
  rw [add_helperF_eq_add_helper (by omega)]

theorem add_helper_colon_leaf {key : String} (h : hasColon key = true)
    {D : Dict} {w : Value}
    (hlk : List.lookup (parse_key key).1 D = some w)
    (hw : ∀ l, w ≠ .vDict l) (val : Value) :
    add_helper D key val = .error .typeError := by
  have hmem : (keys D).contains (parse_key key).1 = true :=
    List.elem_eq_true_of_mem (mem_keys_of_lookup hlk)
  rw [add_helper]
  show add_helperF (key.data.length + 1) D key val = _
  simp only [add_helperF, h, if_true, hmem, hlk]
  cases w with
  | vDict l => exact absurd rfl (hw l)
  | vBool b => rfl
  | vInt i => rfl
  | vStr s => rfl
  | vNone => rfl
  | vArr a => rfl

/-! dictSet / keys / lookup lemmas. -/

theorem keys_dictSet_of_mem {D : Dict} {k : String} (h : k ∈ keys D) (v : Value) :
    keys (dictSet D k v) = keys D := by
  induction D with
  | nil => simp [keys] at h
  | cons kv t ih =>
    obtain ⟨k', v'⟩ := kv
    rw [dictSet]
    by_cases hk : k' = k
    · subst hk
      rw [if_pos rfl]
      rfl
    · rw [if_neg hk]
      have hmem : k ∈ keys t := by
        rw [keys, List.map_cons] at h
        rcases List.mem_cons.mp h with h' | h'
        · exact absurd h'.symm hk
        · exact h'
      show k' :: keys (dictSet t k v) = k' :: keys t
      rw [ih hmem]

theorem keys_dictSet_of_not_mem {D : Dict} {k : String} (h : k ∉ keys D)
    (v : Value) : keys (dictSet D k v) = keys D ++ [k] := by
  rw [dictSet_append_of_not_mem h, keys_append]
  rfl

theorem lookup_dictSet_self (D : Dict) (k : String) (v : Value) :
    List.lookup k (dictSet D k v) = some v := by
  induction D with
  | nil => simp [dictSet, List.lookup]
  | cons kv t ih =>
    obtain ⟨k', v'⟩ := kv
    rw [dictSet]
    by_cases hk : k' = k
    · subst hk
      rw [if_pos rfl, List.lookup]
      simp
    · rw [if_neg hk, List.lookup]
      have : (k == k') = false := by simpa using (fun hc => hk hc.symm)
      rw [this]
      exact ih

theorem lookup_dictSet_ne {x k : String} (h : x ≠ k) (D : Dict) (v : Value) :
    List.lookup x (dictSet D k v) = List.lookup x D := by
  induction D with
  | nil =>
    have hb : (x == k) = false := by simpa using h
    simp [dictSet, List.lookup, hb]
  | cons kv t ih =>
    obtain ⟨k', v'⟩ := kv
    rw [dictSet]
    by_cases hk : k' = k
    · subst hk
      rw [if_pos rfl, List.lookup, List.lookup]
      have : (x == k') = false := by simpa using h
      rw [this]
    · rw [if_neg hk, List.lookup, List.lookup]
      cases x == k'
      · exact ih
      · rfl

theorem dictSet_dictSet_same (D : Dict) (k : String) (a b : Value) :
    dictSet (dictSet D k a) k b = dictSet D k b := by
  induction D with
  | nil => simp [dictSet]
  | cons kv t ih =>
    obtain ⟨k', v'⟩ := kv
    by_cases hk : k' = k
    · subst hk
      rw [dictSet, if_pos rfl, dictSet, if_pos rfl, dictSet, if_pos rfl]
    · rw [dictSet, if_neg hk, dictSet, if_neg hk, dictSet, if_neg hk, ih]

theorem contains_eq_of_perm {l1 l2 : List String} (h : l1.Perm l2) (x : String) :
    l1.contains x = l2.contains x := by
  by_cases hm : x ∈ l1
  · rw [show l1.contains x = true from List.elem_eq_true_of_mem hm,
      show l2.contains x = true from List.elem_eq_true_of_mem (h.mem_iff.mp hm)]
  · have hm2 : x ∉ l2 := fun hc => hm (h.mem_iff.mpr hc)
    cases hc1 : l1.contains x
    · cases hc2 : l2.contains x
      · rfl
      · exact absurd (List.mem_of_elem_eq_true hc2) hm2
    · exact absurd (List.mem_of_elem_eq_true hc1) hm

/-! Reflexivity and transitivity of content equivalence. -/

theorem equivVal_refl_aux : ∀ (N : Nat) (v : Value), valueSize v ≤ N → EquivVal v v := by
  intro N
  induction N with
  | zero =>
    intro v h
    have := valueSize_pos v
    omega
  | succ N ih =>
    intro v h
    cases v with
    | vBool b => exact .vbool b
    | vInt n => exact .vint n
    | vStr s => exact .vstr s
    | vNone => exact .vnone
    | vArr a =>
      refine .varr a a rfl (fun i h1 h2 => ?_)
      have hmem : a.get ⟨i, h1⟩ ∈ a := by
        rw [List.get_eq_getElem]
        exact List.getElem_mem _
      have hle := valueSize_le_of_mem hmem
      have hsz : valueSize (Value.vArr a) = valueListSize a + 1 := rfl
      exact ih _ (by omega)
    | vDict d =>
      refine .vdict d d (List.Perm.refl _) (fun k v1 v2 h1 h2 => ?_)
      obtain rfl : v1 = v2 := Option.some.inj (h1.symm.trans h2)
      have hle := valueSize_le_of_entry_mem (lookup_mem h1)
      have hsz : valueSize (Value.vDict d) = entryListSize d + 1 := rfl
      exact ih _ (by omega)

theorem equivVal_refl (v : Value) : EquivVal v v :=
  equivVal_refl_aux (valueSize v) v (le_refl _)

theorem equivVal_trans_aux : ∀ (N : Nat) {v1 v2 v3 : Value}, valueSize v1 ≤ N →
    EquivVal v1 v2 → EquivVal v2 v3 → EquivVal v1 v3 := by
  intro N
  induction N with
  | zero =>
    intro v1 _ _ h
    have := valueSize_pos v1
    omega
  | succ N ih =>
    intro v1 v2 v3 hsz h12 h23
    cases h12 with
    | vbool b => exact h23
    | vint n => exact h23
    | vstr s => exact h23
    | vnone => exact h23
    | varr a1 a2 hlen hel =>
      cases h23 with
      | varr _ a3 hlen2 hel2 =>
        refine .varr a1 a3 (hlen.trans hlen2) (fun i h1 h3 => ?_)
        have h2 : i < a2.length := by omega
        have hmem : a1.get ⟨i, h1⟩ ∈ a1 := by
          rw [List.get_eq_getElem]
          exact List.getElem_mem _
        have hle := valueSize_le_of_mem hmem
        have hsza : valueSize (Value.vArr a1) = valueListSize a1 + 1 := rfl
        exact ih (by omega) (hel i h1 h2) (hel2 i h2 h3)
    | vdict l1 l2 hk hv =>
      cases h23 with
      | vdict _ l3 hk2 hv2 =>
        refine .vdict l1 l3 (hk.trans hk2) (fun k v1 v3 hl1 hl3 => ?_)
        have hkm : k ∈ keys l2 := hk.mem_iff.mp (mem_keys_of_lookup hl1)
        obtain ⟨v2, hl2⟩ := mem_keys_exists_lookup hkm
        have hle := valueSize_le_of_entry_mem (lookup_mem hl1)
        have hszd : valueSize (Value.vDict l1) = entryListSize l1 + 1 := rfl
        exact ih (by omega) (hv k _ _ hl1 hl2) (hv2 k _ _ hl2 hl3)

theorem equivVal_trans {v1 v2 v3 : Value} (h12 : EquivVal v1 v2)
    (h23 : EquivVal v2 v3) : EquivVal v1 v3 :=
  equivVal_trans_aux (valueSize v1) (le_refl _) h12 h23

theorem dictEquiv_refl (d : Dict) : DictEquiv d d := equivVal_refl _

theorem dictEquiv_trans {d1 d2 d3 : Dict} (h12 : DictEquiv d1 d2)
    (h23 : DictEquiv d2 d3) : DictEquiv d1 d3 := equivVal_trans h12 h23

theorem dictEquiv_keys_perm {d1 d2 : Dict} (h : DictEquiv d1 d2) :
    (keys d1).Perm (keys d2) := by
  cases h with
  | vdict _ _ hk _ => exact hk

theorem dictEquiv_lookup_rel {d1 d2 : Dict} (h : DictEquiv d1 d2) {k : String}
    {v1 v2 : Value} (h1 : List.lookup k d1 = some v1)
    (h2 : List.lookup k d2 = some v2) : EquivVal v1 v2 := by
  cases h with
  | vdict _ _ _ hv => exact hv k v1 v2 h1 h2

theorem dictEquiv_lookup_exists {d1 d2 : Dict} (h : DictEquiv d1 d2)
    {k : String} {v1 : Value} (h1 : List.lookup k d1 = some v1) :
    ∃ v2, List.lookup k d2 = some v2 ∧ EquivVal v1 v2 := by
  have hk2 : k ∈ keys d2 := (dictEquiv_keys_perm h).mem_iff.mp (mem_keys_of_lookup h1)
  obtain ⟨v2, hl2⟩ := mem_keys_exists_lookup hk2
  exact ⟨v2, hl2, dictEquiv_lookup_rel h h1 hl2⟩

theorem dictEquiv_lookup_none {d1 d2 : Dict} (h : DictEquiv d1 d2)
    {k : String} (h1 : List.lookup k d1 = none) : List.lookup k d2 = none := by
  cases h2 : List.lookup k d2 with
  | none => rfl
  | some v2 =>
    have hk1 : k ∈ keys d1 := (dictEquiv_keys_perm h).mem_iff.mpr (mem_keys_of_lookup h2)
    obtain ⟨v1, hl1⟩ := mem_keys_exists_lookup hk1
    rw [h1] at hl1
    exact absurd hl1 (by simp)

theorem dictEquiv_of_keys_perm_lookup_eq {e1 e2 : Dict}
    (hk : (keys e1).Perm (keys e2))
    (hl : ∀ k, List.lookup k e1 = List.lookup k e2) : DictEquiv e1 e2 := by
  refine .vdict _ _ hk (fun k v1 v2 h1 h2 => ?_)
  rw [hl k, h2] at h1
  obtain rfl : v2 = v1 := Option.some.inj h1
  exact equivVal_refl _

theorem dictSet_congr {d1 d2 : Dict} (h : DictEquiv d1 d2) {v1 v2 : Value}
    (hv : EquivVal v1 v2) (k : String) :
    DictEquiv (dictSet d1 k v1) (dictSet d2 k v2) := by
  have hk := dictEquiv_keys_perm h
  refine .vdict _ _ ?_ ?_
  · by_cases hm : k ∈ keys d1
    · rw [keys_dictSet_of_mem hm, keys_dictSet_of_mem (hk.mem_iff.mp hm)]
      exact hk
    · rw [keys_dictSet_of_not_mem hm,
        keys_dictSet_of_not_mem (fun hc => hm (hk.mem_iff.mpr hc))]
      exact hk.append_right _
  · intro x w1 w2 h1 h2
    by_cases hx : x = k
    · subst hx
      rw [lookup_dictSet_self] at h1 h2
      obtain rfl : v1 = w1 := Option.some.inj h1
      obtain rfl : v2 = w2 := Option.some.inj h2
      exact hv
    · rw [lookup_dictSet_ne hx] at h1 h2
      exact dictEquiv_lookup_rel h h1 h2

theorem dictSet_comm_equiv {k1 k2 : String} (hne : k1 ≠ k2) (D : Dict)
    (v1 v2 : Value) :
    DictEquiv (dictSet (dictSet D k1 v1) k2 v2)
      (dictSet (dictSet D k2 v2) k1 v1) := by
  apply dictEquiv_of_keys_perm_lookup_eq
  · by_cases h1 : k1 ∈ keys D <;> by_cases h2 : k2 ∈ keys D
    · have m1 : k2 ∈ keys (dictSet D k1 v1) := by
        rw [keys_dictSet_of_mem h1]; exact h2
      have m2 : k1 ∈ keys (dictSet D k2 v2) := by
        rw [keys_dictSet_of_mem h2]; exact h1
      rw [keys_dictSet_of_mem m1, keys_dictSet_of_mem h1,
        keys_dictSet_of_mem m2, keys_dictSet_of_mem h2]
    · have m1 : k2 ∉ keys (dictSet D k1 v1) := by
        rw [keys_dictSet_of_mem h1]; exact h2
      have m2 : k1 ∈ keys (dictSet D k2 v2) := by
        rw [keys_dictSet_of_not_mem h2]; exact List.mem_append_left _ h1
      rw [keys_dictSet_of_not_mem m1, keys_dictSet_of_mem h1,
        keys_dictSet_of_mem m2, keys_dictSet_of_not_mem h2]
    · have m1 : k2 ∈ keys (dictSet D k1 v1) := by
        rw [keys_dictSet_of_not_mem h1]; exact List.mem_append_left _ h2
      have m2 : k1 ∉ keys (dictSet D k2 v2) := by
        rw [keys_dictSet_of_mem h2]; exact h1
      rw [keys_dictSet_of_mem m1, keys_dictSet_of_not_mem h1,
        keys_dictSet_of_not_mem m2, keys_dictSet_of_mem h2]
    · have h1x : k1 ∉ keys (dictSet D k2 v2) := by
        rw [keys_dictSet_of_not_mem h2]
        intro hc
        rcases List.mem_append.mp hc with hc | hc
        · exact h1 hc
        · have he : k1 = k2 := by simpa using hc
          exact hne he
      have h2x : k2 ∉ keys (dictSet D k1 v1) := by
        rw [keys_dictSet_of_not_mem h1]
        intro hc
        rcases List.mem_append.mp hc with hc | hc
        · exact h2 hc
        · have he : k2 = k1 := by simpa using hc
          exact hne he.symm
      rw [keys_dictSet_of_not_mem h2x, keys_dictSet_of_not_mem h1,
        keys_dictSet_of_not_mem h1x, keys_dictSet_of_not_mem h2,
        List.append_assoc, List.append_assoc]
      exact List.Perm.append_left _ (List.Perm.swap _ _ _)
  · intro x
    by_cases hx1 : x = k1
    · subst hx1
      rw [lookup_dictSet_ne hne, lookup_dictSet_self, lookup_dictSet_self]
    · by_cases hx2 : x = k2
      · subst hx2
        rw [lookup_dictSet_self, lookup_dictSet_ne (fun hc => hne hc.symm),
          lookup_dictSet_self]
      · rw [lookup_dictSet_ne hx2, lookup_dictSet_ne hx1,
          lookup_dictSet_ne hx1, lookup_dictSet_ne hx2]

theorem lookup_eq_of_perm {d1 d2 : Dict} (h : d1.Perm d2) :
    (keys d1).Nodup → ∀ k, List.lookup k d1 = List.lookup k d2 := by
  induction h with
  | nil => intro _ _; rfl
  | cons x h12 ih =>
    intro hnd k
    obtain ⟨kx, vx⟩ := x
    simp only [List.lookup]
    cases k == kx
    · exact ih (by
        rw [keys, List.map_cons] at hnd
        exact (List.nodup_cons.mp hnd).2) k
    · rfl
  | swap x y l =>
    intro hnd k
    obtain ⟨kx, vx⟩ := x
    obtain ⟨ky, vy⟩ := y
    have hnexy : ky ≠ kx := by
      rw [keys, List.map_cons, List.map_cons] at hnd
      intro hc
      exact (List.nodup_cons.mp hnd).1 (hc ▸ List.mem_cons_self _ _)
    simp only [List.lookup]
    by_cases hky : k = ky
    · subst hky
      rw [beq_self_eq_true]
      have hb : (k == kx) = false := by simpa using hnexy
      rw [hb]
    · have hb : (k == ky) = false := by simpa using hky
      rw [hb]
  | trans h12 h23 ih1 ih2 =>
    intro hnd k
    rw [ih1 hnd k, ih2 (((h12.map Prod.fst).nodup_iff).mp hnd) k]

theorem dictEquiv_of_perm_nodup {d1 d2 : Dict} (h : d1.Perm d2)
    (hnd : (keys d1).Nodup) : DictEquiv d1 d2 :=
  dictEquiv_of_keys_perm_lookup_eq (h.map Prod.fst) (lookup_eq_of_perm h hnd)

theorem dictEquiv_singleton {k : String} {v1 v2 : Value} (h : EquivVal v1 v2) :
    DictEquiv [(k, v1)] [(k, v2)] :=
  dictSet_congr (dictEquiv_refl []) h k

/-- Equivalence of loop outcomes: both fail, or both succeed with
content-equivalent dicts. -/
def ExceptEquiv : Except PyErr Dict → Except PyErr Dict → Prop
  | .ok a, .ok b => DictEquiv a b
  | .error _, .error _ => True
  | _, _ => False

theorem exceptEquiv_refl (r : Except PyErr Dict) : ExceptEquiv r r := by
  cases r with
  | ok a => exact dictEquiv_refl a
  | error e => trivial

theorem exceptEquiv_trans {r1 r2 r3 : Except PyErr Dict}
    (h12 : ExceptEquiv r1 r2) (h23 : ExceptEquiv r2 r3) : ExceptEquiv r1 r3 := by
  cases r1 with
  | ok a =>
    cases r2 with
    | ok b =>
      cases r3 with
      | ok c => exact dictEquiv_trans h12 h23
      | error e => exact False.elim h23
    | error e => exact False.elim h12
  | error e =>
    cases r2 with
    | ok b => exact False.elim h12
    | error e2 =>
      cases r3 with
      | ok c => exact False.elim h23
      | error e3 => trivial

/-! Segment decomposition of colon-delimited keys, and independence of
paths (neither segment list is a prefix of the other). -/

/-- Split a character list at every colon (structural version of repeated
`parse_key`). -/
def splitCols : List Char → List (List Char)
  | [] => [[]]
  | c :: rest =>
    match splitCols rest with
    | s :: ss => if c = ':' then [] :: s :: ss else (c :: s) :: ss
    | [] => [[]]

/-- The colon-separated segments of a key. -/
def segs (key : String) : List String := (splitCols key.data).map (fun l => ⟨l⟩)

/-- Boolean list-prefix test on segment lists. -/
def prefixOfB : List String → List String → Bool
  | [], _ => true
  | _ :: _, [] => false
  | a :: as, b :: bs => a == b && prefixOfB as bs

/-- Two keys denote independent paths: neither segment list is a prefix
of the other (in particular the keys are distinct). -/
def Indep (k1 k2 : String) : Prop :=
  prefixOfB (segs k1) (segs k2) = false ∧ prefixOfB (segs k2) (segs k1) = false

instance instDecidableIndep (k1 k2 : String) : Decidable (Indep k1 k2) :=
  inferInstanceAs (Decidable (prefixOfB (segs k1) (segs k2) = false ∧
    prefixOfB (segs k2) (segs k1) = false))

theorem indep_symm {k1 k2 : String} (h : Indep k1 k2) : Indep k2 k1 :=
  ⟨h.2, h.1⟩

theorem splitCols_ne_nil (l : List Char) : splitCols l ≠ [] := by
  cases l with
  | nil => simp [splitCols]
  | cons c rest =>
    rw [splitCols]
    cases splitCols rest with
    | nil => simp
    | cons s ss =>
      by_cases hc : c = ':' <;> simp [hc]

theorem splitCols_no_colon {l : List Char} (h : l.contains ':' = false) :
    splitCols l = [l] := by
  induction l with
  | nil => rfl
  | cons c rest ih =>
    have hc : ¬ c = ':' := by
      intro hcc
      subst hcc
      simp [List.contains_eq_any_beq] at h
    have hrest : rest.contains ':' = false := by
      rw [List.contains_eq_any_beq] at h ⊢
      simp only [List.any_cons, Bool.or_eq_false_iff] at h
      exact h.2
    rw [splitCols, ih hrest]
    simp [hc]

theorem splitCols_colon {l : List Char} (h : l.contains ':' = true) :
    splitCols l = l.takeWhile (fun c => c != ':') ::
      splitCols ((l.dropWhile (fun c => c != ':')).tail) := by
  induction l with
  | nil => simp [List.contains_eq_any_beq] at h
  | cons c rest ih =>
    by_cases hc : c = ':'
    · subst hc
      have ht : (':' :: rest).takeWhile (fun c => c != ':') = [] := by
        simp [List.takeWhile]
      have hd : (':' :: rest).dropWhile (fun c => c != ':') = ':' :: rest := by
        simp [List.dropWhile]
      rw [ht, hd, List.tail_cons, splitCols]
      cases hs : splitCols rest with
      | nil => exact absurd hs (splitCols_ne_nil rest)
      | cons s ss => simp
    · have hrest : rest.contains ':' = true := by
        rw [List.contains_eq_any_beq] at h
        simp only [List.any_cons, Bool.or_eq_true] at h
        rcases h with h | h
        · rw [beq_iff_eq] at h
          exact absurd h.symm hc
        · rw [List.contains_eq_any_beq]
          exact h
      have hcb : (c != ':') = true := by simpa using hc
      have ht : (c :: rest).takeWhile (fun x => x != ':') =
          c :: rest.takeWhile (fun x => x != ':') := by
        simp [List.takeWhile, hcb]
      have hd : (c :: rest).dropWhile (fun x => x != ':') =
          rest.dropWhile (fun x => x != ':') := by
        simp [List.dropWhile, hcb]
      rw [ht, hd, splitCols, ih hrest]
      simp [hc]

theorem segs_no_colon {key : String} (h : hasColon key = false) :
    segs key = [key] := by
  rw [segs, splitCols_no_colon h]
  rfl

theorem segs_colon {key : String} (h : hasColon key = true) :
    segs key = (parse_key key).1 :: segs (parse_key key).2 := by
  rw [segs, splitCols_colon h, List.map_cons]
  rfl

theorem segs_ne_nil (key : String) : segs key ≠ [] := by
  rw [segs]
  intro hc
  exact splitCols_ne_nil key.data (List.map_eq_nil.mp hc)

theorem indep_plain_plain {k1 k2 : String} (h : Indep k1 k2)
    (h1 : hasColon k1 = false) (h2 : hasColon k2 = false) : k1 ≠ k2 := by
  have := h.1
  rw [segs_no_colon h1, segs_no_colon h2] at this
  simp only [prefixOfB, Bool.and_eq_false_iff] at this
  rcases this with hb | hb
  · exact fun hc => by
      rw [hc] at hb
      simp at hb
  · simp [prefixOfB] at hb

theorem indep_colon_plain {k1 k2 : String} (h : Indep k1 k2)
    (h1 : hasColon k1 = true) (h2 : hasColon k2 = false) :
    (parse_key k1).1 ≠ k2 := by
  have hp := h.2
  rw [segs_no_colon h2, segs_colon h1] at hp
  simp only [prefixOfB, Bool.and_eq_false_iff] at hp
  rcases hp with hb | hb
  · intro hc
    rw [hc] at hb
    simp at hb
  · simp [prefixOfB] at hb

theorem indep_both_colon_rem {k1 k2 : String} (h : Indep k1 k2)
    (h1 : hasColon k1 = true) (h2 : hasColon k2 = true)
    (hh : (parse_key k1).1 = (parse_key k2).1) :
    Indep (parse_key k1).2 (parse_key k2).2 := by
  obtain ⟨ha, hb⟩ := h
  rw [segs_colon h1, segs_colon h2] at ha hb
  constructor
  · rw [prefixOfB, hh] at ha
    simpa using ha
  · rw [prefixOfB, hh] at hb
    simpa using hb

/-! Symmetry of content equivalence. -/

theorem equivVal_symm_aux : ∀ (N : Nat) {v1 v2 : Value}, valueSize v1 ≤ N →
    EquivVal v1 v2 → EquivVal v2 v1 := by
  intro N
  induction N with
  | zero =>
    intro v1 _ h
    have := valueSize_pos v1
    omega
  | succ N ih =>
    intro v1 v2 hsz h
    cases h with
    | vbool b => exact .vbool b
    | vint n => exact .vint n
    | vstr s => exact .vstr s
    | vnone => exact .vnone
    | varr a1 a2 hlen hel =>
      refine .varr a2 a1 hlen.symm (fun i h2 h1 => ?_)
      have hmem : a1.get ⟨i, h1⟩ ∈ a1 := by
        rw [List.get_eq_getElem]
        exact List.getElem_mem _
      have hle := valueSize_le_of_mem hmem
      have hsza : valueSize (Value.vArr a1) = valueListSize a1 + 1 := rfl
      exact ih (by omega) (hel i h1 h2)
    | vdict l1 l2 hk hv =>
      refine .vdict l2 l1 hk.symm (fun k v2 v1 h2 h1 => ?_)
      have hle := valueSize_le_of_entry_mem (lookup_mem h1)
      have hszd : valueSize (Value.vDict l1) = entryListSize l1 + 1 := rfl
      exact ih (by omega) (hv k v1 v2 h1 h2)

theorem equivVal_symm {v1 v2 : Value} (h : EquivVal v1 v2) : EquivVal v2 v1 :=
  equivVal_symm_aux (valueSize v1) (le_refl _) h

theorem exceptEquiv_symm {r1 r2 : Except PyErr Dict} (h : ExceptEquiv r1 r2) :
    ExceptEquiv r2 r1 := by
  cases r1 with
  | ok a =>
    cases r2 with
    | ok b => exact equivVal_symm h
    | error e => exact False.elim h
  | error e =>
    cases r2 with
    | ok b => exact False.elim h
    | error e2 => trivial

/-! Congruence of `add_helper` with respect to content equivalence. -/

theorem contains_false_of_lookup_none {D : Dict} {k : String}
    (h : List.lookup k D = none) : (keys D).contains k = false := by
  cases hc : (keys D).contains k
  · rfl
  · obtain ⟨w, hw⟩ := mem_keys_exists_lookup (List.mem_of_elem_eq_true hc)
    rw [h] at hw
    exact absurd hw (by simp)

theorem add_helper_congr : ∀ (N : Nat) (key : String), key.data.length ≤ N →
    ∀ (D1 D2 : Dict) (val : Value), DictEquiv D1 D2 →
    ExceptEquiv (add_helper D1 key val) (add_helper D2 key val) := by
  intro N
  induction N with
  | zero =>
    intro key hN D1 D2 val h
    have hc := hasColon_of_nil_data (by omega : key.data.length = 0)
    rw [add_helper_no_colon hc, add_helper_no_colon hc]
    exact dictSet_congr h (equivVal_refl _) _
  | succ N ih =>
    intro key hN D1 D2 val h
    cases hc : hasColon key
    · rw [add_helper_no_colon hc, add_helper_no_colon hc]
      exact dictSet_congr h (equivVal_refl _) _
    · have hlt := parse_key_rem_lt hc
      cases hlk : List.lookup (parse_key key).1 D1 with
      | none =>
        have hlk2 := dictEquiv_lookup_none h hlk
        rw [add_helper_colon_not_mem hc (contains_false_of_lookup_none hlk),
          add_helper_colon_not_mem hc (contains_false_of_lookup_none hlk2)]
        exact dictSet_congr h (equivVal_refl _) _
      | some w1 =>
        obtain ⟨w2, hlk2, hw⟩ := dictEquiv_lookup_exists h hlk
        cases hw with
        | vdict l1 l2 hpk hpv =>
          rw [add_helper_colon_dict hc hlk, add_helper_colon_dict hc hlk2]
          have hrec := ih (parse_key key).2 (by omega) l1 l2 val (.vdict _ _ hpk hpv)
          cases hr1 : add_helper l1 (parse_key key).2 val with
          | ok T1 =>
            cases hr2 : add_helper l2 (parse_key key).2 val with
            | ok T2 =>
              rw [hr1, hr2] at hrec
              exact dictSet_congr h (.vdict _ _ (dictEquiv_keys_perm hrec)
                (fun k a b ha hb => dictEquiv_lookup_rel hrec ha hb)) _
            | error e =>
              rw [hr1, hr2] at hrec
              exact False.elim hrec
          | error e1 =>
            cases hr2 : add_helper l2 (parse_key key).2 val with
            | ok T2 =>
              rw [hr1, hr2] at hrec
              exact False.elim hrec
            | error e2 => trivial
        | vbool b =>
          rw [add_helper_colon_leaf hc hlk (fun l hl => Value.noConfusion hl) val,
            add_helper_colon_leaf hc hlk2 (fun l hl => Value.noConfusion hl) val]
          trivial
        | vint n =>
          rw [add_helper_colon_leaf hc hlk (fun l hl => Value.noConfusion hl) val,
            add_helper_colon_leaf hc hlk2 (fun l hl => Value.noConfusion hl) val]
          trivial
        | vstr s =>
          rw [add_helper_colon_leaf hc hlk (fun l hl => Value.noConfusion hl) val,
            add_helper_colon_leaf hc hlk2 (fun l hl => Value.noConfusion hl) val]
          trivial
        | vnone =>
          rw [add_helper_colon_leaf hc hlk (fun l hl => Value.noConfusion hl) val,
            add_helper_colon_leaf hc hlk2 (fun l hl => Value.noConfusion hl) val]
          trivial
        | varr a1 a2 hlen hel =>
          rw [add_helper_colon_leaf hc hlk (fun l hl => Value.noConfusion hl) val,
            add_helper_colon_leaf hc hlk2 (fun l hl => Value.noConfusion hl) val]
          trivial

/-! Building blocks for the insertion-order commutation argument. -/

/-- The entry list of the dict built by `assign_leaf` (proof device). -/
def leafDict (key : String) (val : Value) : Dict :=
  if hasColon key then [((parse_key key).1, assign_leaf (parse_key key).2 val)]
  else [(key, val)]

theorem leafDict_plain {key : String} (hc : hasColon key = false) (val : Value) :
    leafDict key val = [(key, val)] := by
  simp [leafDict, hc]

theorem leafDict_colon {key : String} (hc : hasColon key = true) (val : Value) :
    leafDict key val = [((parse_key key).1, assign_leaf (parse_key key).2 val)] := by
  simp [leafDict, hc]

theorem assign_leaf_eq_leafDict (key : String) (val : Value) :
    assign_leaf key val = .vDict (leafDict key val) := by
  cases hc : hasColon key
  · rw [assign_leaf_no_colon hc, leafDict_plain hc]
  · rw [assign_leaf_colon hc, leafDict_colon hc]

theorem lookup_singleton_self (k : String) (v : Value) :
    List.lookup k [(k, v)] = some v := by
  simp [List.lookup]

theorem dictSet_singleton_same (k : String) (x y : Value) :
    dictSet [(k, x)] k y = [(k, y)] := by
  simp [dictSet]

theorem contains_singleton_false {a b : String} (h : b ≠ a) :
    ([a] : List String).contains b = false := by
  simp [List.contains_eq_any_beq, h]

theorem two_entry_swap_equiv {a b : String} (hne : a ≠ b) (x y : Value) :
    DictEquiv [(a, x), (b, y)] [(b, y), (a, x)] :=
  dictEquiv_of_perm_nodup (List.Perm.swap _ _ _) (by simp [keys, hne])

theorem add_into_singleton_plain {k2 : String} (hc2 : hasColon k2 = false)
    {a : String} (hne : k2 ≠ a) (x v2 : Value) :
    add_helper [(a, x)] k2 v2 = .ok [(a, x), (k2, v2)] := by
  rw [add_helper_no_colon hc2]
  rw [dictSet_append_of_not_mem (fun hm => hne (by simpa [keys] using hm)) v2]
  rfl

theorem add_into_singleton_colon {k2 : String} (hc2 : hasColon k2 = true)
    {a : String} (hne : (parse_key k2).1 ≠ a) (x v2 : Value) :
    add_helper [(a, x)] k2 v2 =
      .ok [(a, x), ((parse_key k2).1, assign_leaf (parse_key k2).2 v2)] := by
  have hcont : (keys [(a, x)]).contains (parse_key k2).1 = false := by
    show ([a] : List String).contains (parse_key k2).1 = false
    exact contains_singleton_false hne
  rw [add_helper_colon_not_mem hc2 hcont]
  rw [dictSet_append_of_not_mem (fun hm => hne (by simpa [keys] using hm)) _]
  rfl

theorem add_leafDict_swap : ∀ (N : Nat) (r1 r2 : String) (v1 v2 : Value),
    r1.data.length + r2.data.length ≤ N → Indep r1 r2 →
    ∃ T1 T2, add_helper (leafDict r1 v1) r2 v2 = .ok T1 ∧
      add_helper (leafDict r2 v2) r1 v1 = .ok T2 ∧ DictEquiv T1 T2 := by
  intro N
  induction N with
  | zero =>
    intro r1 r2 v1 v2 hN hind
    have h1 : hasColon r1 = false := hasColon_of_nil_data (by omega)
    have h2 : hasColon r2 = false := hasColon_of_nil_data (by omega)
    have heq : r1 = r2 := String.ext (by
      have e1 : r1.data = [] := List.length_eq_zero.mp (by omega)
      have e2 : r2.data = [] := List.length_eq_zero.mp (by omega)
      rw [e1, e2])
    exact absurd heq (indep_plain_plain hind h1 h2)
  | succ N ih =>
    intro r1 r2 v1 v2 hN hind
    cases hc1 : hasColon r1 with
    | false =>
      cases hc2 : hasColon r2 with
      | false =>
        have hne : r1 ≠ r2 := indep_plain_plain hind hc1 hc2
        refine ⟨[(r1, v1), (r2, v2)], [(r2, v2), (r1, v1)], ?_, ?_, ?_⟩
        · rw [leafDict_plain hc1]
          exact add_into_singleton_plain hc2 (fun hc => hne hc.symm) v1 v2
        · rw [leafDict_plain hc2]
          exact add_into_singleton_plain hc1 hne v2 v1
        · exact two_entry_swap_equiv hne _ _
      | true =>
        have hne : (parse_key r2).1 ≠ r1 := indep_colon_plain (indep_symm hind) hc2 hc1
        refine ⟨[(r1, v1), ((parse_key r2).1, assign_leaf (parse_key r2).2 v2)],
          [((parse_key r2).1, assign_leaf (parse_key r2).2 v2), (r1, v1)], ?_, ?_, ?_⟩
        · rw [leafDict_plain hc1]
          exact add_into_singleton_colon hc2 hne v1 v2
        · rw [leafDict_colon hc2]
          exact add_into_singleton_plain hc1 (fun hc => hne hc.symm) _ v1
        · exact two_entry_swap_equiv (fun hc => hne hc.symm) _ _
    | true =>
      cases hc2 : hasColon r2 with
      | false =>
        have hne : (parse_key r1).1 ≠ r2 := indep_colon_plain hind hc1 hc2
        refine ⟨[((parse_key r1).1, assign_leaf (parse_key r1).2 v1), (r2, v2)],
          [(r2, v2), ((parse_key r1).1, assign_leaf (parse_key r1).2 v1)], ?_, ?_, ?_⟩
        · rw [leafDict_colon hc1]
          exact add_into_singleton_plain hc2 (fun hc => hne hc.symm) _ v2
        · rw [leafDict_plain hc2]
          exact add_into_singleton_colon hc1 hne v2 v1
        · exact two_entry_swap_equiv hne _ _
      | true =>
        by_cases hh : (parse_key r1).1 = (parse_key r2).1
        · have hind2 := indep_both_colon_rem hind hc1 hc2 hh
          have hlt1 := parse_key_rem_lt hc1
          have hlt2 := parse_key_rem_lt hc2
          obtain ⟨T1, T2, ha, hb, heq⟩ :=
            ih (parse_key r1).2 (parse_key r2).2 v1 v2 (by omega) hind2
          refine ⟨[((parse_key r1).1, .vDict T1)], [((parse_key r1).1, .vDict T2)],
            ?_, ?_, ?_⟩
          · rw [leafDict_colon hc1, assign_leaf_eq_leafDict]
            have hlk : List.lookup (parse_key r2).1
                [((parse_key r1).1, Value.vDict (leafDict (parse_key r1).2 v1))] =
                some (.vDict (leafDict (parse_key r1).2 v1)) := by
              rw [← hh]
              exact lookup_singleton_self _ _
            rw [add_helper_colon_dict hc2 hlk, ha]
            show Except.ok (dictSet
              [((parse_key r1).1, Value.vDict (leafDict (parse_key r1).2 v1))]
              (parse_key r2).1 (Value.vDict T1)) = _
            rw [← hh, dictSet_singleton_same]
          · rw [leafDict_colon hc2, assign_leaf_eq_leafDict]
            have hlk : List.lookup (parse_key r1).1
                [((parse_key r2).1, Value.vDict (leafDict (parse_key r2).2 v2))] =
                some (.vDict (leafDict (parse_key r2).2 v2)) := by
              rw [hh]
              exact lookup_singleton_self _ _
            rw [add_helper_colon_dict hc1 hlk, hb]
            show Except.ok (dictSet
              [((parse_key r2).1, Value.vDict (leafDict (parse_key r2).2 v2))]
              (parse_key r1).1 (Value.vDict T2)) = _
            rw [hh, dictSet_singleton_same]
          · exact dictEquiv_singleton heq
        · refine ⟨[((parse_key r1).1, assign_leaf (parse_key r1).2 v1),
              ((parse_key r2).1, assign_leaf (parse_key r2).2 v2)],
            [((parse_key r2).1, assign_leaf (parse_key r2).2 v2),
              ((parse_key r1).1, assign_leaf (parse_key r1).2 v1)], ?_, ?_, ?_⟩
          · rw [leafDict_colon hc1]
            exact add_into_singleton_colon hc2 (fun hc => hh hc.symm) _ v2
          · rw [leafDict_colon hc2]
            exact add_into_singleton_colon hc1 hh _ v1
          · exact two_entry_swap_equiv hh _ _

/-- The top-level dict key that `add_helper` touches (proof device). -/
def headKey (k : String) : String :=
  if hasColon k then (parse_key k).1 else k

theorem headKey_plain {k : String} (hc : hasColon k = false) : headKey k = k := by
  simp [headKey, hc]

theorem headKey_colon {k : String} (hc : hasColon k = true) :
    headKey k = (parse_key k).1 := by
  simp [headKey, hc]

theorem addE_ok (D : Dict) (k : String) (v : Value) :
    addE (.ok D) k v = add_helper D k v := rfl

theorem addE_error (e : PyErr) (k : String) (v : Value) :
    addE (.error e) k v = .error e := rfl

/-- `add_helper` either fails, or returns `dictSet D (headKey k) Y` for
some `Y`; and both the failure and `Y` are unchanged if the starting dict
is first updated at any other key. -/
theorem add_helper_case_split (k : String) (D : Dict) (v : Value) :
    (∃ e, add_helper D k v = .error e ∧
      ∀ (a : String) (X : Value), headKey k ≠ a →
        add_helper (dictSet D a X) k v = .error e) ∨
    (∃ Y, add_helper D k v = .ok (dictSet D (headKey k) Y) ∧
      ∀ (a : String) (X : Value), headKey k ≠ a →
        add_helper (dictSet D a X) k v = .ok (dictSet (dictSet D a X) (headKey k) Y)) := by
  cases hc : hasColon k with
  | false =>
    right
    refine ⟨v, ?_, ?_⟩
    · rw [add_helper_no_colon hc, headKey_plain hc]
    · intro a X hna
      rw [add_helper_no_colon hc, headKey_plain hc]
  | true =>
    rw [headKey_colon hc]
    cases hlk : List.lookup (parse_key k).1 D with
    | none =>
      right
      refine ⟨assign_leaf (parse_key k).2 v, ?_, ?_⟩
      · rw [add_helper_colon_not_mem hc (contains_false_of_lookup_none hlk)]
      · intro a X hna
        have hlk2 : List.lookup (parse_key k).1 (dictSet D a X) = none := by
          rw [lookup_dictSet_ne hna, hlk]
        rw [add_helper_colon_not_mem hc (contains_false_of_lookup_none hlk2)]
    | some w =>
      cases w with
      | vDict D2 =>
        cases hr : add_helper D2 (parse_key k).2 v with
        | ok D3 =>
          right
          refine ⟨.vDict D3, ?_, ?_⟩
          · rw [add_helper_colon_dict hc hlk, hr]
          · intro a X hna
            have hlk2 : List.lookup (parse_key k).1 (dictSet D a X) =
                some (.vDict D2) := by
              rw [lookup_dictSet_ne hna, hlk]
            rw [add_helper_colon_dict hc hlk2, hr]
        | error e =>
          left
          refine ⟨e, ?_, ?_⟩
          · rw [add_helper_colon_dict hc hlk, hr]
          · intro a X hna
            have hlk2 : List.lookup (parse_key k).1 (dictSet D a X) =
                some (.vDict D2) := by
              rw [lookup_dictSet_ne hna, hlk]
            rw [add_helper_colon_dict hc hlk2, hr]
      | vBool b =>
        left
        refine ⟨.typeError,
          add_helper_colon_leaf hc hlk (fun l hl => Value.noConfusion hl) v,
          fun a X hna => ?_⟩
        have hlk2 : List.lookup (parse_key k).1 (dictSet D a X) = some (.vBool b) := by
          rw [lookup_dictSet_ne hna, hlk]
        exact add_helper_colon_leaf hc hlk2 (fun l hl => Value.noConfusion hl) v
      | vInt n =>
        left
        refine ⟨.typeError,
          add_helper_colon_leaf hc hlk (fun l hl => Value.noConfusion hl) v,
          fun a X hna => ?_⟩
        have hlk2 : List.lookup (parse_key k).1 (dictSet D a X) = some (.vInt n) := by
          rw [lookup_dictSet_ne hna, hlk]
        exact add_helper_colon_leaf hc hlk2 (fun l hl => Value.noConfusion hl) v
      | vStr s =>
        left
        refine ⟨.typeError,
          add_helper_colon_leaf hc hlk (fun l hl => Value.noConfusion hl) v,
          fun a X hna => ?_⟩
        have hlk2 : List.lookup (parse_key k).1 (dictSet D a X) = some (.vStr s) := by
          rw [lookup_dictSet_ne hna, hlk]
        exact add_helper_colon_leaf hc hlk2 (fun l hl => Value.noConfusion hl) v
      | vNone =>
        left
        refine ⟨.typeError,
          add_helper_colon_leaf hc hlk (fun l hl => Value.noConfusion hl) v,
          fun a X hna => ?_⟩
        have hlk2 : List.lookup (parse_key k).1 (dictSet D a X) = some .vNone := by
          rw [lookup_dictSet_ne hna, hlk]
        exact add_helper_colon_leaf hc hlk2 (fun l hl => Value.noConfusion hl) v
      | vArr arr =>
        left
        refine ⟨.typeError,
          add_helper_colon_leaf hc hlk (fun l hl => Value.noConfusion hl) v,
          fun a X hna => ?_⟩
        have hlk2 : List.lookup (parse_key k).1 (dictSet D a X) = some (.vArr arr) := by
          rw [lookup_dictSet_ne hna, hlk]
        exact add_helper_colon_leaf hc hlk2 (fun l hl => Value.noConfusion hl) v

/-- Two insertions whose head keys differ commute up to content
equivalence (including equality of failure behavior). -/
theorem add_add_swap_diff_heads {k1 k2 : String} (hne : headKey k1 ≠ headKey k2)
    (v1 v2 : Value) (D : Dict) :
    ExceptEquiv (addE (add_helper D k1 v1) k2 v2)
      (addE (add_helper D k2 v2) k1 v1) := by
  rcases add_helper_case_split k1 D v1 with ⟨e1, he1, hinv1⟩ | ⟨Y1, hok1, hinv1⟩ <;>
    rcases add_helper_case_split k2 D v2 with ⟨e2, he2, hinv2⟩ | ⟨Y2, hok2, hinv2⟩
  · rw [he1, addE_error, he2, addE_error]
    trivial
  · rw [he1, addE_error, hok2, addE_ok, hinv1 (headKey k2) Y2 hne]
    trivial
  · rw [hok1, addE_ok, hinv2 (headKey k1) Y1 (fun hc => hne hc.symm), he2, addE_error]
    trivial
  · rw [hok1, addE_ok, hinv2 (headKey k1) Y1 (fun hc => hne hc.symm),
      hok2, addE_ok, hinv1 (headKey k2) Y2 hne]
    exact dictSet_comm_equiv hne D Y1 Y2

/-- Independent insertions commute up to content equivalence, from any
starting dict: same failure behavior, content-equivalent results. -/
theorem add_add_swap : ∀ (N : Nat) (k1 k2 : String) (v1 v2 : Value) (D : Dict),
    k1.data.length + k2.data.length ≤ N → Indep k1 k2 →
    ExceptEquiv (addE (add_helper D k1 v1) k2 v2)
      (addE (add_helper D k2 v2) k1 v1) := by
  intro N
  induction N with
  | zero =>
    intro k1 k2 v1 v2 D hN hind
    have h1 : hasColon k1 = false := hasColon_of_nil_data (by omega)
    have h2 : hasColon k2 = false := hasColon_of_nil_data (by omega)
    have heq : k1 = k2 := String.ext (by
      have e1 : k1.data = [] := List.length_eq_zero.mp (by omega)
      have e2 : k2.data = [] := List.length_eq_zero.mp (by omega)
      rw [e1, e2])
    exact absurd heq (indep_plain_plain hind h1 h2)
  | succ N ih =>
    intro k1 k2 v1 v2 D hN hind
    by_cases hhk : headKey k1 = headKey k2
    · cases hc1 : hasColon k1 with
      | false =>
        cases hc2 : hasColon k2 with
        | false =>
          rw [headKey_plain hc1, headKey_plain hc2] at hhk
          exact absurd hhk (indep_plain_plain hind hc1 hc2)
        | true =>
          rw [headKey_plain hc1, headKey_colon hc2] at hhk
          exact absurd hhk.symm (indep_colon_plain (indep_symm hind) hc2 hc1)
      | true =>
        cases hc2 : hasColon k2 with
        | false =>
          rw [headKey_colon hc1, headKey_plain hc2] at hhk
          exact absurd hhk (indep_colon_plain hind hc1 hc2)
        | true =>
          rw [headKey_colon hc1, headKey_colon hc2] at hhk
          have hind2 := indep_both_colon_rem hind hc1 hc2 hhk
          have hlt1 := parse_key_rem_lt hc1
          have hlt2 := parse_key_rem_lt hc2
          cases hlk : List.lookup (parse_key k1).1 D with
          | none =>
            have hlk2 : List.lookup (parse_key k2).1 D = none := by
              rw [← hhk]
              exact hlk
            obtain ⟨T1, T2, ha, hb, hteq⟩ := add_leafDict_swap
              ((parse_key k1).2.data.length + (parse_key k2).2.data.length)
              (parse_key k1).2 (parse_key k2).2 v1 v2 (le_refl _) hind2
            have hL : addE (add_helper D k1 v1) k2 v2 =
                .ok (dictSet D (parse_key k1).1 (.vDict T1)) := by
              rw [add_helper_colon_not_mem hc1 (contains_false_of_lookup_none hlk),
                addE_ok]
              have hlkS : List.lookup (parse_key k2).1
                  (dictSet D (parse_key k1).1 (assign_leaf (parse_key k1).2 v1)) =
                  some (.vDict (leafDict (parse_key k1).2 v1)) := by
                rw [← hhk, lookup_dictSet_self, assign_leaf_eq_leafDict]
              rw [add_helper_colon_dict hc2 hlkS, ha]
              show Except.ok (dictSet (dictSet D (parse_key k1).1
                (assign_leaf (parse_key k1).2 v1)) (parse_key k2).1
                (Value.vDict T1)) = _
              rw [← hhk, dictSet_dictSet_same]
            have hR : addE (add_helper D k2 v2) k1 v1 =
                .ok (dictSet D (parse_key k1).1 (.vDict T2)) := by
              rw [add_helper_colon_not_mem hc2 (contains_false_of_lookup_none hlk2),
                addE_ok]
              have hlkS : List.lookup (parse_key k1).1
                  (dictSet D (parse_key k2).1 (assign_leaf (parse_key k2).2 v2)) =
                  some (.vDict (leafDict (parse_key k2).2 v2)) := by
                rw [hhk, lookup_dictSet_self, assign_leaf_eq_leafDict]
              rw [add_helper_colon_dict hc1 hlkS, hb]
              show Except.ok (dictSet (dictSet D (parse_key k2).1
                (assign_leaf (parse_key k2).2 v2)) (parse_key k1).1
                (Value.vDict T2)) = _
              rw [hhk, dictSet_dictSet_same]
            rw [hL, hR]
            exact dictSet_congr (dictEquiv_refl D)
              (show EquivVal (.vDict T1) (.vDict T2) from hteq) _
          | some w =>
            cases w with
            | vDict D2 =>
              have hlk2 : List.lookup (parse_key k2).1 D = some (.vDict D2) := by
                rw [← hhk]
                exact hlk
              have hrec := ih (parse_key k1).2 (parse_key k2).2 v1 v2 D2
                (by omega) hind2
              have hL : addE (add_helper D k1 v1) k2 v2 =
                  match addE (add_helper D2 (parse_key k1).2 v1)
                      (parse_key k2).2 v2 with
                  | .ok T => .ok (dictSet D (parse_key k1).1 (.vDict T))
                  | .error e => .error e := by
                rw [add_helper_colon_dict hc1 hlk]
                cases hr1 : add_helper D2 (parse_key k1).2 v1 with
                | error e => rfl
                | ok D3 =>
                  show add_helper (dictSet D (parse_key k1).1 (Value.vDict D3))
                      k2 v2 =
                    match add_helper D3 (parse_key k2).2 v2 with
                    | .ok T => .ok (dictSet D (parse_key k1).1 (.vDict T))
                    | .error e => .error e
                  have hlkS : List.lookup (parse_key k2).1
                      (dictSet D (parse_key k1).1 (Value.vDict D3)) =
                      some (.vDict D3) := by
                    rw [← hhk, lookup_dictSet_self]
                  rw [add_helper_colon_dict hc2 hlkS]
                  cases hr2 : add_helper D3 (parse_key k2).2 v2 with
                  | error e => rfl
                  | ok T =>
                    show Except.ok (dictSet (dictSet D (parse_key k1).1
                      (Value.vDict D3)) (parse_key k2).1 (Value.vDict T)) = _
                    rw [← hhk, dictSet_dictSet_same]
              have hR : addE (add_helper D k2 v2) k1 v1 =
                  match addE (add_helper D2 (parse_key k2).2 v2)
                      (parse_key k1).2 v1 with
                  | .ok T => .ok (dictSet D (parse_key k1).1 (.vDict T))
                  | .error e => .error e := by
                rw [add_helper_colon_dict hc2 hlk2]
                cases hr1 : add_helper D2 (parse_key k2).2 v2 with
                | error e => rfl
                | ok D3 =>
                  show add_helper (dictSet D (parse_key k2).1 (Value.vDict D3))
                      k1 v1 =
                    match add_helper D3 (parse_key k1).2 v1 with
                    | .ok T => .ok (dictSet D (parse_key k1).1 (.vDict T))
                    | .error e => .error e
                  have hlkS : List.lookup (parse_key k1).1
                      (dictSet D (parse_key k2).1 (Value.vDict D3)) =
                      some (.vDict D3) := by
                    rw [hhk, lookup_dictSet_self]
                  rw [add_helper_colon_dict hc1 hlkS]
                  cases hr2 : add_helper D3 (parse_key k1).2 v1 with
                  | error e => rfl
                  | ok T =>
                    show Except.ok (dictSet (dictSet D (parse_key k2).1
                      (Value.vDict D3)) (parse_key k1).1 (Value.vDict T)) = _
                    rw [hhk, dictSet_dictSet_same]
              rw [hL, hR]
              cases hx1 : addE (add_helper D2 (parse_key k1).2 v1)
                  (parse_key k2).2 v2 with
              | error e1 =>
                cases hx2 : addE (add_helper D2 (parse_key k2).2 v2)
                    (parse_key k1).2 v1 with
                | error e2 => trivial
                | ok T2 =>
                  rw [hx1, hx2] at hrec
                  exact False.elim hrec
              | ok T1 =>
                cases hx2 : addE (add_helper D2 (parse_key k2).2 v2)
                    (parse_key k1).2 v1 with
                | error e2 =>
                  rw [hx1, hx2] at hrec
                  exact False.elim hrec
                | ok T2 =>
                  rw [hx1, hx2] at hrec
                  exact dictSet_congr (dictEquiv_refl D)
                    (show EquivVal (.vDict T1) (.vDict T2) from hrec) _
            | vBool b =>
              have hlk2 : List.lookup (parse_key k2).1 D = some (.vBool b) := by
                rw [← hhk]
                exact hlk
              rw [add_helper_colon_leaf hc1 hlk (fun l hl => Value.noConfusion hl) v1,
                addE_error,
                add_helper_colon_leaf hc2 hlk2 (fun l hl => Value.noConfusion hl) v2,
                addE_error]
              trivial
            | vInt n =>
              have hlk2 : List.lookup (parse_key k2).1 D = some (.vInt n) := by
                rw [← hhk]
                exact hlk
              rw [add_helper_colon_leaf hc1 hlk (fun l hl => Value.noConfusion hl) v1,
                addE_error,
                add_helper_colon_leaf hc2 hlk2 (fun l hl => Value.noConfusion hl) v2,
                addE_error]
              trivial
            | vStr s =>
              have hlk2 : List.lookup (parse_key k2).1 D = some (.vStr s) := by
                rw [← hhk]
                exact hlk
              rw [add_helper_colon_leaf hc1 hlk (fun l hl => Value.noConfusion hl) v1,
                addE_error,
                add_helper_colon_leaf hc2 hlk2 (fun l hl => Value.noConfusion hl) v2,
                addE_error]
              trivial
            | vNone =>
              have hlk2 : List.lookup (parse_key k2).1 D = some .vNone := by
                rw [← hhk]
                exact hlk
              rw [add_helper_colon_leaf hc1 hlk (fun l hl => Value.noConfusion hl) v1,
                addE_error,
                add_helper_colon_leaf hc2 hlk2 (fun l hl => Value.noConfusion hl) v2,
                addE_error]
              trivial
            | vArr arr =>
              have hlk2 : List.lookup (parse_key k2).1 D = some (.vArr arr) := by
                rw [← hhk]
                exact hlk
              rw [add_helper_colon_leaf hc1 hlk (fun l hl => Value.noConfusion hl) v1,
                addE_error,
                add_helper_colon_leaf hc2 hlk2 (fun l hl => Value.noConfusion hl) v2,
                addE_error]
              trivial
    · exact add_add_swap_diff_heads hhk v1 v2 D

theorem addE_congr {r1 r2 : Except PyErr Dict} (h : ExceptEquiv r1 r2)
    (key : String) (val : Value) :
    ExceptEquiv (addE r1 key val) (addE r2 key val) := by
  cases r1 with
  | ok a =>
    cases r2 with
    | ok b => exact add_helper_congr key.data.length key (le_refl _) a b val h
    | error e => exact False.elim h
  | error e =>
    cases r2 with
    | ok b => exact False.elim h
    | error e2 => trivial

theorem addE_addE_swap {k1 k2 : String} (hind : Indep k1 k2)
    (r : Except PyErr Dict) (v1 v2 : Value) :
    ExceptEquiv (addE (addE r k1 v1) k2 v2) (addE (addE r k2 v2) k1 v1) := by
  cases r with
  | ok D =>
    exact add_add_swap (k1.data.length + k2.data.length) k1 k2 v1 v2 D
      (le_refl _) hind
  | error e => trivial

theorem foldAdd_congr : ∀ (l : List (String × Value)) {r1 r2 : Except PyErr Dict},
    ExceptEquiv r1 r2 → ExceptEquiv (foldAdd r1 l) (foldAdd r2 l) := by
  intro l
  induction l with
  | nil => intro r1 r2 h; exact h
  | cons kv t ih =>
    intro r1 r2 h
    exact ih (addE_congr h kv.1 kv.2)

theorem foldAdd_perm : ∀ {p1 p2 : List (String × Value)}, p1.Perm p2 →
    List.Pairwise (fun a b => Indep a.1 b.1) p1 →
    ∀ {r1 r2 : Except PyErr Dict}, ExceptEquiv r1 r2 →
    ExceptEquiv (foldAdd r1 p1) (foldAdd r2 p2) := by
  intro p1 p2 hp
  induction hp with
  | nil => intro _ r1 r2 h; exact h
  | cons x hp ih =>
    intro hpw r1 r2 h
    exact ih (List.pairwise_cons.mp hpw).2 (addE_congr h x.1 x.2)
  | swap x y l =>
    intro hpw r1 r2 h
    have hxy : Indep y.1 x.1 :=
      (List.pairwise_cons.mp hpw).1 x (List.mem_cons_self _ _)
    have step1 : ExceptEquiv (addE (addE r1 y.1 y.2) x.1 x.2)
        (addE (addE r2 y.1 y.2) x.1 x.2) :=
      addE_congr (addE_congr h _ _) _ _
    have step2 : ExceptEquiv (addE (addE r2 y.1 y.2) x.1 x.2)
        (addE (addE r2 x.1 x.2) y.1 y.2) :=
      addE_addE_swap hxy r2 y.2 x.2
    exact foldAdd_congr l (exceptEquiv_trans step1 step2)
  | trans hp12 hp23 ih1 ih2 =>
    intro hpw r1 r2 h
    have hpw2 := (List.Perm.pairwise_iff (fun hab => indep_symm hab) hp12).mp hpw
    exact exceptEquiv_trans (ih1 hpw h) (ih2 hpw2 (exceptEquiv_refl r2))

/-- Claim C5: `reconstruct_helper` splits each key at the first colon and
merges into any dict already present at the head key, so for flat dicts
whose keys are pairwise independent paths the content of the result does
not depend on the iteration order; in particular every ordering of
`{"a:b:c": 1, "a:b:d": 2, "a:e": 3}` reconstructs to a dict
content-equivalent to `{"a": {"b": {"c": 1, "d": 2}, "e": 3}}`. -/
theorem C5_reconstruction_order_independent :
    (∀ p1 p2 : List (String × Value),
      List.Pairwise (fun a b => Indep a.1 b.1) p1 → p1.Perm p2 →
      ExceptEquiv (reconstruct_helper p1) (reconstruct_helper p2)) ∧
    (∀ p : List (String × Value),
      p.Perm [("a:b:c", .vInt 1), ("a:b:d", .vInt 2), ("a:e", .vInt 3)] →
      ∃ D, reconstruct_helper p = .ok D ∧
        DictEquiv D [("a", .vDict [("b", .vDict [("c", .vInt 1), ("d", .vInt 2)]),
          ("e", .vInt 3)])]) := by
  have hgen : ∀ p1 p2 : List (String × Value),
      List.Pairwise (fun a b => Indep a.1 b.1) p1 → p1.Perm p2 →
      ExceptEquiv (reconstruct_helper p1) (reconstruct_helper p2) :=
    fun p1 p2 hpw hp => foldAdd_perm hp hpw (exceptEquiv_refl _)
  refine ⟨hgen, ?_⟩
  intro p hp
  have hpw : List.Pairwise (fun a b => Indep a.1 b.1) p :=
    (List.Perm.pairwise_iff (fun hab => indep_symm hab) hp).mpr (by decide)
  have hq := hgen p [("a:b:c", .vInt 1), ("a:b:d", .vInt 2), ("a:e", .vInt 3)] hpw hp
  have hex : reconstruct_helper
      [("a:b:c", .vInt 1), ("a:b:d", .vInt 2), ("a:e", .vInt 3)] =
      .ok [("a", .vDict [("b", .vDict [("c", .vInt 1), ("d", .vInt 2)]),
        ("e", .vInt 3)])] := rfl
  rw [hex] at hq
  cases hr : reconstruct_helper p with
  | error e =>
    rw [hr] at hq
    exact False.elim hq
  | ok D =>
    rw [hr] at hq
    exact ⟨D, rfl, hq⟩

/-- Witness for C5: a concrete non-canonical ordering of the three flat
keys reconstructs to a dict content-equivalent to the nested target. -/
theorem C5_reconstruction_order_independent_witness :
    ∃ D, reconstruct_helper
        [("a:b:d", .vInt 2), ("a:b:c", .vInt 1), ("a:e", .vInt 3)] = .ok D ∧
      DictEquiv D [("a", .vDict [("b", .vDict [("c", .vInt 1), ("d", .vInt 2)]),
        ("e", .vInt 3)])] :=
  C5_reconstruction_order_independent.2 _ (List.Perm.swap _ _ _)

/-- Claim C10 (code bug): the functional result of `add_helper` follows
the same structural rule for every head segment, but the `pdb.set_trace()`
at lines 430-431 suspends execution into an interactive debugger exactly
when a head segment is the literal string `'data_hps'` — a side effect
depending on the segment name, contradicting the claim's uniformity. -/
theorem C10_data_hps_debugger_trap :
    add_helper_hits [] "data_hps:x" = true ∧
    add_helper_hits [] "q:x" = false ∧
    add_helper [] "data_hps:x" (.vInt 1) =
      .ok [("data_hps", .vDict [("x", .vInt 1)])] ∧
    add_helper [] "q:x" (.vInt 1) = .ok [("q", .vDict [("x", .vInt 1)])] :=
  ⟨rfl, rfl, rfl, rfl⟩

end HP
